import Mathlib

/-! # magex-server: framing and acknowledgment engine

A shallow embedding of `magex-server.go`: the wire codec (`Message.Bytes`,
`ReadMessage`), the acknowledgment builder (`Message.Ack`) and the three
pumps (`readMessages`, `writeMessages`, `handleCommands`).

Conventions of the embedding:

* a Go `byte` is `Fin 256`, a `uint32` is `Fin 4294967296`; conversions into
  them reduce modulo the width explicitly (`toByte`, `toU32`);
* a Go `[]byte` and a Go `string` are both `List Byte` (the program only
  converts between the two, byte for byte);
* an `io.Reader` is the finite list of bytes still to come, followed by end
  of stream;
* `log.Fatalf` ends the process: it is a separate outcome, distinct from a
  returned error;
* a channel is the list of values sent on it, in order.
-/

namespace Magex

/-- A Go `byte`. -/
abbrev Byte := Fin 256

/-- A Go `uint32`. -/
abbrev U32 := Fin 4294967296

/-- Conversion `byte(n)`: keeps the low 8 bits. -/
def toByte (n : Nat) : Byte := ⟨n % 256, Nat.mod_lt n (by decide)⟩

/-- Conversion `uint32(n)`: keeps the low 32 bits. -/
def toU32 (n : Nat) : U32 := ⟨n % 4294967296, Nat.mod_lt n (by decide)⟩

/-- The struct `Message` of the source. -/
structure Message where
  msgType : Byte
  msgId : List Byte
  length : U32
  msg : List Byte
deriving DecidableEq, Repr

/-- The zero value of `Message` (the named result `m` before any assignment). -/
def Message.zero : Message := ⟨0, [], 0, []⟩

/-- The constant `syn := byte(0x16)`. -/
def syn : Byte := 0x16

/-! ## Encoding: `binary.Write` into a `bytes.Buffer` -/

/-- `binary.Write(&buf, binary.BigEndian, b)` for a single `byte`. -/
def binaryWriteU8 (buf : List Byte) (b : Byte) : List Byte := buf ++ [b]

/-- `binary.Write(&buf, binary.BigEndian, bs)` for a `[]byte`: the bytes as they are. -/
def binaryWriteBytes (buf : List Byte) (bs : List Byte) : List Byte := buf ++ bs

/-- `binary.BigEndian.PutUint32`: `b[0] = byte(v >> 24)`, `b[1] = byte(v >> 16)`,
`b[2] = byte(v >> 8)`, `b[3] = byte(v)`. -/
def putUint32 (v : U32) : List Byte :=
  [toByte (v.val >>> 24), toByte (v.val >>> 16), toByte (v.val >>> 8), toByte v.val]

/-- `binary.Write(&buf, binary.BigEndian, v)` for a `uint32`. -/
def binaryWriteU32 (buf : List Byte) (v : U32) : List Byte := buf ++ putUint32 v

/-- The method `(m *Message) Bytes()`: six successive writes into one buffer. -/
def Message.Bytes (m : Message) : List Byte :=
  let buf : List Byte := []
  let buf := binaryWriteU8 buf syn
  let buf := binaryWriteU8 buf syn
  let buf := binaryWriteU8 buf m.msgType
  let buf := binaryWriteBytes buf m.msgId
  let buf := binaryWriteU32 buf m.length
  let buf := binaryWriteBytes buf m.msg
  buf

/-! ## Decoding: `binary.Read` from an `io.Reader` -/

/-- The errors `ReadMessage` can hand back to its caller. -/
inductive Error where
  | EOF
  | ErrUnexpectedEOF
  | synExpected (b : Byte)
  | invalidMsgType (b : Byte)
deriving DecidableEq, Repr

/-- Result of one `binary.Read`: the bytes read and the stream left, or the error. -/
inductive ReadResult where
  | ok (bs : List Byte) (rest : List Byte)
  | err (e : Error)
deriving DecidableEq, Repr

/-- `io.ReadFull(r, buf)` with `len(buf) = n`, which every `binary.Read` of the source
goes through: all `n` bytes, or `EOF` when none was there, or `ErrUnexpectedEOF` when
the stream ended part-way. -/
def readFull (n : Nat) (r : List Byte) : ReadResult :=
  if n ≤ r.length then .ok (r.take n) (r.drop n)
  else match r with
    | [] => .err .EOF
    | _ :: _ => .err .ErrUnexpectedEOF

/-- `binary.BigEndian.Uint32`: `b[3] | b[2]<<8 | b[1]<<16 | b[0]<<24` in `uint32`. -/
def uint32BE (bs : List Byte) : U32 :=
  match bs with
  | [b0, b1, b2, b3] => toU32 (b3.val ||| b2.val <<< 8 ||| b1.val <<< 16 ||| b0.val <<< 24)
  | _ => 0

/-- The calls of `log.Fatalf` in `ReadMessage`; each ends the process. -/
inductive Fatal where
  | cantReadUuid (e : Error)
  | cantReadLen (e : Error)
  | cantReadPayload (e : Error)
deriving DecidableEq, Repr

/-- What a call of `ReadMessage` comes to: it returns `(m, err)` leaving `rest` unread,
or the process is ended by `log.Fatalf`. -/
inductive Outcome where
  | returned (m : Message) (err : Option Error) (rest : List Byte)
  | fatal (f : Fatal)
deriving DecidableEq, Repr

/-- The loop `for i := 0; i < 2; i++` of `ReadMessage`, with `n` iterations left.
`Sum.inl e`: the read failed and the function returns `e`.
`Sum.inr (err, rest)`: the loop ran out; `err` is the variable `err` as the last
iteration left it (a wrong sync byte only assigns it, the loop goes on). -/
def synLoop : Nat → List Byte → Option Error → Error ⊕ (Option Error × List Byte)
  | 0, r, err => .inr (err, r)
  | n + 1, r, _ =>
    match readFull 1 r with
    | .err e => .inl e
    | .ok bs r1 =>
      let b := bs.headD 0
      synLoop n r1 (if b ≠ syn then some (.synExpected b) else none)

/-- The loop `for i := 0; i < int(m.length); i++` of `ReadMessage`, with `n` iterations
left and `payload` the buffer so far (`int` is taken to be 64 bits wide, so that
`int(m.length)` is the value of `m.length`). -/
def payloadLoop : Nat → List Byte → List Byte → ReadResult
  | 0, r, payload => .ok payload r
  | n + 1, r, payload =>
    match readFull 1 r with
    | .err e => .err e
    | .ok bs r1 => payloadLoop n r1 (payload ++ [bs.headD 0])

/-- The function `ReadMessage(in io.Reader) (m Message, err error)`. -/
def ReadMessage (r : List Byte) : Outcome :=
  let m := Message.zero
  match synLoop 2 r none with
  | .inl e => .returned m (some e) []
  | .inr (_, r) =>
    -- err = binary.Read(in, binary.BigEndian, &m.msgType): the old err is overwritten
    let (m, _, r) :=
      match readFull 1 r with
      | .err e => (m, some e, ([] : List Byte))
      | .ok bs r1 => ({ m with msgType := bs.headD 0 }, (none : Option Error), r1)
    if m.msgType ≠ 0 ∧ m.msgType ≠ 1 then
      .returned m (some (.invalidMsgType m.msgType)) r
    else
      match readFull 16 r with
      | .err e => .fatal (.cantReadUuid e)
      | .ok uuid r =>
        let m := { m with msgId := uuid }
        match readFull 4 r with
        | .err e => .fatal (.cantReadLen e)
        | .ok bs r =>
          let m := { m with length := uint32BE bs }
          match payloadLoop m.length.val r [] with
          | .err e => .fatal (.cantReadPayload e)
          | .ok payload r => .returned { m with msg := payload } none r

/-- The method `(m *Message) Ack()`. -/
def Message.Ack (m : Message) : Message :=
  let a := Message.zero
  let a := { a with msgType := 1 }
  let a := { a with msgId := m.msgId }
  if m.length = 1 then
    let a := { a with length := 1 }
    { a with msg := m.msg }
  else a

/-! ## The reader pump -/

/-- How a run of `readMessages` ends: `ReadMessage` returned an error (the function
logs "Disconnected", returns, and its deferred calls close both channels), or the
process was ended inside `ReadMessage`, or the model ran out of fuel. -/
inductive ReaderEnd where
  | disconnected (e : Error)
  | fatal (f : Fatal)
  | outOfFuel
deriving DecidableEq, Repr

/-- What `readMessages` has sent on the channel `commands` and on the channel `ack`,
in order, and how it ended. -/
structure ReaderRun where
  commands : List Message
  ack : List Message
  status : ReaderEnd
deriving DecidableEq, Repr

/-- The loop `for { ... }` of `readMessages`, at most `fuel` iterations. -/
def readMessagesLoop : Nat → List Byte → List Message → List Message → ReaderRun
  | 0, _, commands, ack => ⟨commands, ack, .outOfFuel⟩
  | fuel + 1, conn, commands, ack =>
    match ReadMessage conn with
    | .fatal f => ⟨commands, ack, .fatal f⟩
    | .returned _ (some e) _ => ⟨commands, ack, .disconnected e⟩
    | .returned m none conn =>
      let commands := if m.msgType = 0 then commands ++ [m] else commands
      let ack := if m.msgType = 1 then ack ++ [m] else ack
      readMessagesLoop fuel conn commands ack

/-- The function `readMessages(conn, commands, ack)`. A frame takes at least one byte
off the stream, so one iteration more than there are bytes is enough fuel. -/
def readMessages (conn : List Byte) : ReaderRun :=
  readMessagesLoop (conn.length + 1) conn [] []

/-! ## The writer pump -/

/-- What `writeMessages` does, in order: `conn.Write(msg.Bytes())` and `a, ok := <-ack`
with `ok` true. -/
inductive WEvent where
  | write (msg : Message)
  | recvAck (a : Message)
deriving DecidableEq, Repr

/-- How a run of `writeMessages` over the given channel contents ends. -/
inductive WriterEnd where
  /-- the `range` over `messages` has no further frame -/
  | drained
  /-- `<-ack` gave `ok = false`: the function returns -/
  | ackClosed
  /-- `<-ack` waits on an open, empty channel -/
  | waitingForAck
  /-- `log.Fatalf("Invalid msgtype %v", a)` -/
  | fatalInvalidMsgtype (a : Message)
  /-- `log.Fatalf("UUID did not match sent %s got %s", msg.msgId, a.msgId)` -/
  | fatalUuidMismatch (sent got : List Byte)
deriving DecidableEq, Repr

/-- The function `writeMessages(conn, messages, ack)`: `messages` is what the outbound
channel delivers, `ack` what the ack channel delivers, `closed` whether the ack channel
is closed once `ack` is used up. A failed `conn.Write` is only logged, so the write is
an event either way. -/
def writeMessages : List Message → List Message → Bool → List WEvent × WriterEnd
  | [], _, _ => ([], .drained)
  | msg :: messages, ack, closed =>
    let (evs, fin) : List WEvent × WriterEnd :=
      if msg.msgType = 1 then
        -- don't expect ack for an ack
        writeMessages messages ack closed
      else
        match ack with
        | [] => ([], if closed then .ackClosed else .waitingForAck)
        | a :: ack =>
          let (evs, fin) : List WEvent × WriterEnd :=
            if a.msgType ≠ 1 then ([], .fatalInvalidMsgtype a)
            else if msg.msgId ≠ a.msgId then ([], .fatalUuidMismatch msg.msgId a.msgId)
            else writeMessages messages ack closed
          (.recvAck a :: evs, fin)
    (.write msg :: evs, fin)

/-- The bytes a run has handed to `conn.Write`, in order. -/
def written : List WEvent → List Byte
  | [] => []
  | .write msg :: evs => msg.Bytes ++ written evs
  | .recvAck _ :: evs => written evs

/-! ## The command dispatcher -/

/-- What `handleCommands` takes from outside the program. -/
structure World where
  /-- the keys of `command` after `json.Unmarshal([]byte(c.msg), &command)`, in the
  order in which `range command` visits them in this run -/
  commandKeys : List Byte → List String
  /-- `ioutil.ReadFile`: the contents, or `none` for an error -/
  readFile : String → Option (List Byte)
  /-- the value of `get_uuid()` in the reply to the command number `i` -/
  uuid : Nat → List Byte
  /-- `jsonBytes("dispenseComplete", ...)` for the request with the given payload -/
  dispenseComplete : List Byte → List Byte

/-- The function `createMessage`, given `ms := jsonBytes(t, data)` and the fresh uuid. -/
def createMessage (ms : List Byte) (uuid : List Byte) : Message :=
  ⟨0, uuid, toU32 ms.length, ms⟩

/-- The function `messageFromFile`, given the fresh uuid: `Sum.inl file` is
`log.Fatalf("Error: could not read %s", file)`. -/
def messageFromFile (w : World) (uuid : List Byte) (file : String) : String ⊕ Message :=
  match w.readFile file with
  | none => .inl file
  | some ds => .inr ⟨0, uuid, toU32 ds.length, ds⟩

/-- What the goroutine `sendDispenseComplete(command, writeCh)` sends on `writeCh`. -/
def sendDispenseComplete (w : World) (i : Nat) (c : Message) : Message :=
  createMessage (w.dispenseComplete c.msg) (w.uuid i)

/-- What `handleCommands` does, in program order; `src` is the position in `readCh` of
the command on whose behalf it is done. -/
inductive Action where
  /-- `writeCh <- m` done by `handleCommands` itself -/
  | send (src : Nat) (m : Message)
  /-- `go sendDispenseComplete(command, writeCh)`; the goroutine later does `writeCh <- m` -/
  | spawn (src : Nat) (m : Message)
  /-- `log.Fatalf` in `messageFromFile`: the process ends -/
  | fatal (src : Nat) (file : String)
deriving DecidableEq, Repr

/-- The loop `for c := range readCh` of `handleCommands`, the next command being
number `i`. -/
def handleCommandsFrom (w : World) : Nat → List Message → List Action
  | _, [] => []
  | i, c :: readCh =>
    .send i c.Ack ::
      (if c.length < 2 then handleCommandsFrom w (i + 1) readCh
      else
        let command := w.commandKeys c.msg
        if "dispenseRequest" ∈ command then
          .spawn i (sendDispenseComplete w i c) :: handleCommandsFrom w (i + 1) readCh
        else
          match command with
          | [] => handleCommandsFrom w (i + 1) readCh
          | k :: _ =>
            match messageFromFile w (w.uuid i) (k ++ ".json") with
            | .inl file => [.fatal i file]
            | .inr m => .send i m :: handleCommandsFrom w (i + 1) readCh)

/-- The function `handleCommands(conn, readCh, writeCh)`. -/
def handleCommands (w : World) (readCh : List Message) : List Action :=
  handleCommandsFrom w 0 readCh

/-- The number of commands the loop of `handleCommands` takes from `readCh`: all of
them, unless `messageFromFile` ends the process while one is being handled. -/
def framesTaken (w : World) : List Message → Nat
  | [] => 0
  | c :: readCh =>
    if c.length < 2 then framesTaken w readCh + 1
    else
      let command := w.commandKeys c.msg
      if "dispenseRequest" ∈ command then framesTaken w readCh + 1
      else
        match command with
        | [] => framesTaken w readCh + 1
        | k :: _ =>
          match w.readFile (k ++ ".json") with
          | none => 1
          | some _ => framesTaken w readCh + 1

/-- The dispatcher and its goroutines around the channel `writeCh`: what the loop has
still to do, the sends of goroutines under way, the frames `writeCh` has carried so
far (each with the number of the command it is for), and whether the process ended. -/
structure Session where
  todo : List Action
  pending : List (Nat × Message)
  queue : List (Nat × Message)
  dead : Bool

/-- One step of a session: the loop does its next action, or some goroutine under way
completes its send. Nothing moves once the process has ended. -/
inductive Step : Session → Session → Prop where
  | send (i m todo pending queue) :
      Step ⟨.send i m :: todo, pending, queue, false⟩ ⟨todo, pending, queue ++ [(i, m)], false⟩
  | spawn (i m todo pending queue) :
      Step ⟨.spawn i m :: todo, pending, queue, false⟩ ⟨todo, pending ++ [(i, m)], queue, false⟩
  | fire (i m todo p1 p2 queue) :
      Step ⟨todo, p1 ++ (i, m) :: p2, queue, false⟩ ⟨todo, p1 ++ p2, queue ++ [(i, m)], false⟩
  | fatal (i file todo pending queue) :
      Step ⟨.fatal i file :: todo, pending, queue, false⟩ ⟨todo, pending, queue, true⟩

/-- The session at the start of `handleCommands` on the commands `readCh`. -/
def Session.start (w : World) (readCh : List Message) : Session :=
  ⟨handleCommands w readCh, [], [], false⟩

/-- The session `st` can be reached from the session `s` in some number of steps. -/
def Reaches (s st : Session) : Prop := Relation.ReflTransGen Step s st

/-- The frames `writeCh` has carried on behalf of the command number `i`, in order. -/
def enqueuedFor (i : Nat) (st : Session) : List Message :=
  (st.queue.filter (fun e => e.1 = i)).map (fun e => e.2)

/-! ## Definitions used to state and prove the properties -/

/-- The command an action is done for. -/
def Action.src : Action → Nat
  | .send i _ => i
  | .spawn i _ => i
  | .fatal i _ => i

/-- The actions done for the command number `i`, in program order. -/
def blockOf (i : Nat) (acts : List Action) : List Action :=
  acts.filter (fun a => a.src = i)

/-- The frames a list of actions puts on `writeCh`, sooner or later. -/
def msgsOf : List Action → List Message
  | [] => []
  | .send _ m :: t => m :: msgsOf t
  | .spawn _ m :: t => m :: msgsOf t
  | .fatal _ _ :: t => msgsOf t

/-- A goroutine, if any is started, is started last and sends a frame of kind 0. -/
def okTail : List Action → Prop
  | [] => True
  | .send _ _ :: t => okTail t
  | .spawn _ m :: t => t = [] ∧ m.msgType = 0
  | .fatal _ _ :: t => okTail t

/-- The frames labelled `i` in a labelled list, in order. -/
def proj (i : Nat) (l : List (Nat × Message)) : List Message :=
  (l.filter (fun e => e.1 = i)).map (fun e => e.2)

/-- The sends of goroutines started for the command number `i` and still under way. -/
def pendingFor (i : Nat) (st : Session) : List Message := proj i st.pending

/-- What holds of the command number `i` all along a session, `M` being the frames
the dispatcher puts on `writeCh` for it in all: the frames carried, the sends under way
and the frames still to come make up `M`; no send is under way while the loop has still
something to do for `i`; at most one send is under way, of a frame of kind 0. -/
def Inv (i : Nat) (M : List Message) (st : Session) : Prop :=
  proj i st.queue ++ (proj i st.pending ++ msgsOf (blockOf i st.todo)) = M ∧
  (proj i st.pending = [] ∨ blockOf i st.todo = []) ∧
  (proj i st.pending).length ≤ 1 ∧
  (∀ m ∈ proj i st.pending, m.msgType = 0) ∧
  okTail (blockOf i st.todo)

/-- What `handleCommands` does for the command `c`, number `i`, after the ack. -/
def replyActions (w : World) (i : Nat) (c : Message) : List Action :=
  if c.length < 2 then []
  else if "dispenseRequest" ∈ w.commandKeys c.msg then [.spawn i (sendDispenseComplete w i c)]
  else
    match w.commandKeys c.msg with
    | [] => []
    | k :: _ =>
      match messageFromFile w (w.uuid i) (k ++ ".json") with
      | .inl file => [.fatal i file]
      | .inr m => [.send i m]

/-- Whether the loop of `handleCommands` gets past the command `c`. -/
def goesOn (w : World) (c : Message) : Bool :=
  if c.length < 2 then true
  else if "dispenseRequest" ∈ w.commandKeys c.msg then true
  else
    match w.commandKeys c.msg with
    | [] => true
    | k :: _ => (w.readFile (k ++ ".json")).isSome

/-- The run ended in one of the two calls of `log.Fatalf` of `writeMessages`. -/
def WriterEnd.isFatal : WriterEnd → Bool
  | .fatalInvalidMsgtype _ => true
  | .fatalUuidMismatch _ _ => true
  | _ => false

/-- The bytes of the frames `fs` one after the other. -/
def encodeAll : List Message → List Byte
  | [] => []
  | f :: fs => f.Bytes ++ encodeAll fs

/-- A frame as the peer is meant to send it: kind 0 or 1, a 16-byte id, and a length
that is the number of bytes of the payload. -/
def WellFormed (f : Message) : Prop :=
  (f.msgType = 0 ∨ f.msgType = 1) ∧ f.msgId.length = 16 ∧ f.length.val = f.msg.length

instance (f : Message) : Decidable (WellFormed f) := by
  unfold WellFormed
  infer_instance

/-- A sample world: every payload is a JSON object with the one key "statusRequest",
and every file holds the two bytes of an empty JSON object. -/
def demoWorld : World :=
  ⟨fun _ => ["statusRequest"], fun _ => some [123, 125], fun _ => List.replicate 16 3,
    fun _ => [123, 125]⟩

/-- A command of kind 0 with a two-byte payload. -/
def demoCommand : Message := ⟨0, List.replicate 16 9, 2, [123, 125]⟩

/-- The deferred `close(commands)` and `close(ack)` of `readMessages` run when the
function returns, which it does only from the branch `if err != nil`. -/
def ReaderRun.channelsClosed (run : ReaderRun) : Bool :=
  match run.status with
  | .disconnected _ => true
  | _ => false

/-- The frames a run has handed to `conn.Write`, in order. -/
def writes : List WEvent → List Message
  | [] => []
  | .write msg :: evs => msg :: writes evs
  | .recvAck _ :: evs => writes evs

/-- The ack channel delivers `ack`, which is, for each of the frames `messages` that
`writeMessages` does not take for an ack, one frame of kind 1 with the id of that
frame, in the same order, and after them the frames `left`. -/
def Supplies : List Message → List Message → List Message → Prop
  | [], ack, left => ack = left
  | f :: fs, ack, left =>
    if f.msgType = 1 then Supplies fs ack left
    else ∃ a rest, ack = a :: rest ∧ a.msgType = 1 ∧ a.msgId = f.msgId ∧ Supplies fs rest left

/-- As many as `n` calls of `ReadMessage` one after the other on one stream: the frames
they return, and the stream the last one leaves; `none` as soon as a call does not
return a frame with a nil error. -/
def readFrames : Nat → List Byte → Option (List Message × List Byte)
  | 0, r => some ([], r)
  | n + 1, r =>
    match ReadMessage r with
    | .returned m none r1 =>
      match readFrames n r1 with
      | some (ms, r2) => some (m :: ms, r2)
      | none => none
    | _ => none

/-! ## Lemmas on the codec -/

theorem Bytes_layout (m : Message) :
    m.Bytes = [syn, syn, m.msgType] ++ (m.msgId ++ (putUint32 m.length ++ m.msg)) := by
  simp [Message.Bytes, binaryWriteU8, binaryWriteBytes, binaryWriteU32]

theorem readFull_append (bs rest : List Byte) :
    readFull bs.length (bs ++ rest) = .ok bs rest := by
  simp [readFull]

theorem readFull_cons (b : Byte) (rest : List Byte) :
    readFull 1 (b :: rest) = .ok [b] rest := by
  simp [readFull]

theorem or_shift_eq_add (a b k : Nat) (h : b < 2 ^ k) : b ||| a <<< k = a * 2 ^ k + b := by
  rw [Nat.lor_comm, Nat.shiftLeft_eq, Nat.mul_comm, ← Nat.mul_add_lt_is_or h]

theorem uint32BE_putUint32 (v : U32) : uint32BE (putUint32 v) = v := by
  obtain ⟨n, hn⟩ := v
  apply Fin.ext
  simp only [putUint32, uint32BE, toByte, toU32, Nat.shiftRight_eq_div_pow]
  rw [or_shift_eq_add _ _ 8 (by omega), or_shift_eq_add _ _ 16 (by omega),
    or_shift_eq_add _ _ 24 (by omega)]
  omega

theorem payloadLoop_append (bs rest payload : List Byte) :
    payloadLoop bs.length (bs ++ rest) payload = .ok (payload ++ bs) rest := by
  induction bs generalizing payload with
  | nil => simp [payloadLoop]
  | cons b bs ih =>
    simp only [List.length_cons, List.cons_append, payloadLoop, readFull_cons, List.headD_cons]
    rw [ih]
    simp

theorem length_putUint32 (v : U32) : (putUint32 v).length = 4 := rfl

/-- Decoding an encoded well-formed frame gives the frame back and leaves what
follows it on the stream. -/
theorem ReadMessage_Bytes_append (f : Message) (rest : List Byte)
    (hk : f.msgType = 0 ∨ f.msgType = 1) (hid : f.msgId.length = 16)
    (hlen : f.length.val = f.msg.length) :
    ReadMessage (f.Bytes ++ rest) = .returned f none rest := by
  have h16 : readFull 16 (f.msgId ++ (putUint32 f.length ++ (f.msg ++ rest)))
      = .ok f.msgId (putUint32 f.length ++ (f.msg ++ rest)) := by
    rw [← hid]; exact readFull_append _ _
  have h4 : readFull 4 (putUint32 f.length ++ (f.msg ++ rest))
      = .ok (putUint32 f.length) (f.msg ++ rest) := by
    rw [← length_putUint32 f.length]; exact readFull_append _ _
  have hp : payloadLoop f.length.val (f.msg ++ rest) [] = .ok f.msg rest := by
    rw [hlen, payloadLoop_append]; simp
  have hk2 : ¬ (f.msgType ≠ 0 ∧ f.msgType ≠ 1) := by
    rcases hk with h | h <;> simp [h]
  simp only [Bytes_layout, ReadMessage, synLoop, List.cons_append, List.nil_append,
    List.append_assoc, readFull_cons, List.headD_cons, Message.zero, hk2, if_false, h16, h4,
    uint32BE_putUint32, hp]

theorem payloadLoop_short (n : Nat) (bs payload : List Byte) (h : bs.length < n) :
    payloadLoop n bs payload = .err .EOF := by
  induction bs generalizing n payload with
  | nil =>
    cases n with
    | zero => simp at h
    | succ n => simp [payloadLoop, readFull]
  | cons b bs ih =>
    cases n with
    | zero => simp at h
    | succ n =>
      simp only [payloadLoop, readFull_cons, List.headD_cons]
      exact ih n _ (by simpa using h)

theorem readFull_ok (n : Nat) (r bs rest : List Byte) (h : readFull n r = .ok bs rest) :
    bs.length = n ∧ r.length = n + rest.length ∧ r = bs ++ rest := by
  unfold readFull at h
  split at h
  · rename_i hn
    simp only [ReadResult.ok.injEq] at h
    obtain ⟨rfl, rfl⟩ := h
    refine ⟨by simp [hn], by simp; omega, by simp⟩
  · split at h <;> cases h

theorem payloadLoop_ok (n : Nat) :
    ∀ (r payload p rest : List Byte), payloadLoop n r payload = .ok p rest →
      p.length = payload.length + n ∧ r.length = n + rest.length := by
  induction n with
  | zero =>
    intro r payload p rest h
    simp only [payloadLoop, ReadResult.ok.injEq] at h
    obtain ⟨rfl, rfl⟩ := h
    simp
  | succ n ih =>
    intro r payload p rest h
    cases r with
    | nil => simp [payloadLoop, readFull] at h
    | cons b r1 =>
      simp only [payloadLoop, readFull_cons, List.headD_cons] at h
      obtain ⟨h1, h2⟩ := ih r1 _ p rest h
      simp only [List.length_append, List.length_cons, List.length_nil] at h1 ⊢
      omega

/-- What a call of `ReadMessage` that returns a nil error has read: a kind of 0 or 1,
a 16-byte id, a payload of as many bytes as the length says, and 23 bytes more than
the payload off the stream. -/
theorem ReadMessage_ok_inv (r rest : List Byte) (m : Message)
    (h : ReadMessage r = .returned m none rest) :
    (m.msgType = 0 ∨ m.msgType = 1) ∧ m.msgId.length = 16 ∧
      m.length.val = m.msg.length ∧ r.length = 23 + m.msg.length + rest.length := by
  rcases r with _ | ⟨b0, _ | ⟨b1, _ | ⟨k, r3⟩⟩⟩
  · simp [ReadMessage, synLoop, readFull] at h
  · simp [ReadMessage, synLoop, readFull] at h
  · simp [ReadMessage, synLoop, readFull, Message.zero] at h
  · simp only [ReadMessage, synLoop, readFull_cons, List.headD_cons, Message.zero] at h
    split at h
    · cases h
    · rename_i hk
      have hk2 : k = 0 ∨ k = 1 := by
        by_cases h0 : k = 0
        · exact Or.inl h0
        · by_cases h1 : k = 1
          · exact Or.inr h1
          · exact absurd ⟨h0, h1⟩ hk
      split at h
      · cases h
      · rename_i uuid r4 h16
        obtain ⟨hu, hl16, _⟩ := readFull_ok _ _ _ _ h16
        split at h
        · cases h
        · rename_i bs r5 h4
          obtain ⟨_, hl4, _⟩ := readFull_ok _ _ _ _ h4
          split at h
          · cases h
          · rename_i payload r6 hp
            obtain ⟨hp1, hp2⟩ := payloadLoop_ok _ _ _ _ _ hp
            simp only [Outcome.returned.injEq, true_and] at h
            obtain ⟨rfl, rfl⟩ := h
            simp only [List.length_nil, Nat.zero_add] at hp1
            refine ⟨hk2, hu, hp1.symm, ?_⟩
            simp only [List.length_cons]
            omega

theorem Bytes_length (m : Message) :
    m.Bytes.length = 7 + m.msgId.length + m.msg.length := by
  simp only [Bytes_layout, List.length_append, List.length_cons, List.length_nil,
    length_putUint32]
  omega

/-- However the bytes of `m.Bytes()` after the kind byte and the id are cut into a
4-byte field and what follows it, the field holds `m.length` and what follows is
`m.msg`. -/
theorem Bytes_split (m : Message) (hdr lf pl : List Byte)
    (h : m.Bytes = hdr ++ lf ++ pl) (hh : hdr.length = 3 + m.msgId.length)
    (hl : lf.length = 4) :
    hdr = [syn, syn, m.msgType] ++ m.msgId ∧ lf = putUint32 m.length ∧ pl = m.msg := by
  rw [Bytes_layout, List.append_assoc hdr, ← List.append_assoc [syn, syn, m.msgType]] at h
  have h1 := List.append_inj h (by simp [hh]; omega)
  have h2 := List.append_inj h1.2 (by rw [length_putUint32, hl])
  exact ⟨h1.1.symm, h2.1.symm, h2.2.symm⟩

theorem encodeAll_append (fs gs : List Message) :
    encodeAll (fs ++ gs) = encodeAll fs ++ encodeAll gs := by
  induction fs with
  | nil => rfl
  | cons f fs ih => simp [encodeAll, ih]

theorem readFrames_encodeAll (fs : List Message) (rest : List Byte)
    (hwf : ∀ f ∈ fs, WellFormed f) :
    readFrames fs.length (encodeAll fs ++ rest) = some (fs, rest) := by
  induction fs with
  | nil => rfl
  | cons f fs ih =>
    obtain ⟨hk, hid, hlen⟩ := hwf f (List.mem_cons_self _ _)
    have hrest : ∀ g ∈ fs, WellFormed g := fun g hg => hwf g (List.mem_cons_of_mem _ hg)
    simp only [encodeAll, List.length_cons, readFrames, List.append_assoc,
      ReadMessage_Bytes_append f _ hk hid hlen, ih hrest]

/-! ## Lemmas on the dispatcher -/

theorem Ack_msgType (m : Message) : m.Ack.msgType = 1 := by
  unfold Message.Ack
  split <;> rfl

theorem Ack_msgId (m : Message) : m.Ack.msgId = m.msgId := by
  unfold Message.Ack
  split <;> rfl

theorem enqueuedFor_eq (i : Nat) (st : Session) : enqueuedFor i st = proj i st.queue := rfl

theorem proj_nil (i : Nat) : proj i [] = [] := rfl

theorem proj_append (i : Nat) (l1 l2 : List (Nat × Message)) :
    proj i (l1 ++ l2) = proj i l1 ++ proj i l2 := by
  simp [proj]

theorem proj_single (i j : Nat) (m : Message) :
    proj i [(j, m)] = if j = i then [m] else [] := by
  by_cases h : j = i <;> simp [proj, h]

theorem proj_cons (i j : Nat) (m : Message) (l : List (Nat × Message)) :
    proj i ((j, m) :: l) = (if j = i then [m] else []) ++ proj i l := by
  by_cases h : j = i <;> simp [proj, h]

theorem blockOf_cons (i : Nat) (a : Action) (t : List Action) :
    blockOf i (a :: t) = if a.src = i then a :: blockOf i t else blockOf i t := by
  by_cases h : a.src = i <;> simp [blockOf, h]

theorem Inv_step (i : Nat) (M : List Message) (s t : Session) (h : Inv i M s)
    (hs : Step s t) : Inv i M t := by
  cases hs with
  | send j m todo pending queue =>
    simp only [Inv, blockOf_cons, Action.src, proj_append, proj_single] at h ⊢
    by_cases hj : j = i
    · simp only [hj, if_true, msgsOf, okTail] at h ⊢
      obtain ⟨hsum, hexcl, hone, hkind, htail⟩ := h
      have hp : proj i pending = [] := by simpa using hexcl
      refine ⟨?_, Or.inl hp, hone, hkind, htail⟩
      simpa [hp] using hsum
    · simpa only [hj, if_false, List.append_nil] using h
  | spawn j m todo pending queue =>
    simp only [Inv, blockOf_cons, Action.src, proj_append, proj_single] at h ⊢
    by_cases hj : j = i
    · simp only [hj, if_true, msgsOf, okTail] at h ⊢
      obtain ⟨hsum, hexcl, hone, hkind, ht, hm⟩ := h
      have hp : proj i pending = [] := by simpa using hexcl
      refine ⟨?_, Or.inr ht, by simp [hp], by simp [hp, hm], by simp [ht, okTail]⟩
      simpa [hp, ht, msgsOf] using hsum
    · simpa only [hj, if_false, List.append_nil] using h
  | fire j m todo p1 p2 queue =>
    simp only [Inv, proj_append, proj_cons, proj_single, proj_nil, List.append_nil] at h ⊢
    by_cases hj : j = i
    · simp only [hj, if_true, List.length_append, List.length_cons, List.length_nil] at h ⊢
      obtain ⟨hsum, hexcl, hone, hkind, htail⟩ := h
      have h1 : proj i p1 = [] := List.eq_nil_of_length_eq_zero (by omega)
      have h2 : proj i p2 = [] := List.eq_nil_of_length_eq_zero (by omega)
      have ht : blockOf i todo = [] := by simpa [h1] using hexcl
      refine ⟨?_, Or.inl (by simp [h1, h2]), by simp [h1, h2], by simp [h1, h2], htail⟩
      simpa [h1, h2, ht, msgsOf] using hsum
    · simpa only [hj, if_false, List.append_nil, List.nil_append] using h
  | fatal j file todo pending queue =>
    simp only [Inv, blockOf_cons, Action.src] at h ⊢
    by_cases hj : j = i
    · simp only [hj, if_true, msgsOf, okTail] at h ⊢
      obtain ⟨hsum, hexcl, hone, hkind, htail⟩ := h
      have hp : proj i pending = [] := by simpa using hexcl
      exact ⟨hsum, Or.inl hp, hone, hkind, htail⟩
    · simpa only [hj, if_false] using h

theorem Inv_reaches (i : Nat) (M : List Message) (s t : Session) (h : Inv i M s)
    (hr : Reaches s t) : Inv i M t := by
  induction hr with
  | refl => exact h
  | tail _ hs ih => exact Inv_step i M _ _ ih hs

theorem handleCommandsFrom_cons (w : World) (i : Nat) (c : Message) (cs : List Message) :
    handleCommandsFrom w i (c :: cs) =
      .send i c.Ack :: (replyActions w i c ++
        if goesOn w c then handleCommandsFrom w (i + 1) cs else []) := by
  simp only [handleCommandsFrom, replyActions, goesOn, messageFromFile]
  split
  · simp
  · split
    · simp
    · split
      · simp
      · rename_i k _ _
        have hf : w.readFile (k ++ ".json") = none ∨ ∃ ds, w.readFile (k ++ ".json") = some ds := by
          cases w.readFile (k ++ ".json") <;> simp
        rcases hf with hf | ⟨ds, hf⟩ <;> simp [hf]

theorem framesTaken_cons (w : World) (c : Message) (cs : List Message) :
    framesTaken w (c :: cs) = if goesOn w c then framesTaken w cs + 1 else 1 := by
  simp only [framesTaken, goesOn]
  split
  · simp
  · split
    · simp
    · split
      · simp
      · rename_i k _ _
        have hf : w.readFile (k ++ ".json") = none ∨ ∃ ds, w.readFile (k ++ ".json") = some ds := by
          cases w.readFile (k ++ ".json") <;> simp
        rcases hf with hf | ⟨ds, hf⟩ <;> simp [hf]

theorem replyActions_src (w : World) (i : Nat) (c : Message) :
    ∀ a ∈ replyActions w i c, a.src = i := by
  intro a ha
  simp only [replyActions, messageFromFile] at ha
  split at ha
  · simp at ha
  · split at ha
    · simp at ha; subst ha; rfl
    · split at ha
      · simp at ha
      · rename_i k _ _
        cases hf : w.readFile (k ++ ".json") <;> simp [hf] at ha <;> subst ha <;> rfl

theorem replyActions_okTail (w : World) (i : Nat) (c : Message) :
    okTail (replyActions w i c) := by
  simp only [replyActions, messageFromFile]
  split
  · trivial
  · split
    · exact ⟨rfl, rfl⟩
    · split
      · trivial
      · rename_i k _ _
        cases hf : w.readFile (k ++ ".json") <;> simp [okTail]

theorem replyActions_msgs (w : World) (i : Nat) (c : Message) :
    (msgsOf (replyActions w i c)).length ≤ 1 ∧
      ∀ m ∈ msgsOf (replyActions w i c), m.msgType = 0 := by
  simp only [replyActions, messageFromFile]
  split
  · simp [msgsOf]
  · split
    · simp [msgsOf, sendDispenseComplete, createMessage]
    · split
      · simp [msgsOf]
      · rename_i k _ _
        cases hf : w.readFile (k ++ ".json") <;> simp [msgsOf]

theorem handleCommandsFrom_src (w : World) (cs : List Message) :
    ∀ k a, a ∈ handleCommandsFrom w k cs → k ≤ a.src := by
  induction cs with
  | nil => intro k a ha; simp [handleCommandsFrom] at ha
  | cons c cs ih =>
    intro k a ha
    rw [handleCommandsFrom_cons] at ha
    simp only [List.mem_cons, List.mem_append] at ha
    rcases ha with rfl | ha | ha
    · exact Nat.le_refl _
    · exact Nat.le_of_eq (replyActions_src w k c a ha).symm
    · split at ha
      · exact Nat.le_of_succ_le (ih (k + 1) a ha)
      · simp at ha

theorem blockOf_append (i : Nat) (l1 l2 : List Action) :
    blockOf i (l1 ++ l2) = blockOf i l1 ++ blockOf i l2 := by
  simp [blockOf]

theorem blockOf_eq_self (i : Nat) (l : List Action) (h : ∀ a ∈ l, a.src = i) :
    blockOf i l = l := by
  simp only [blockOf, List.filter_eq_self]
  intro a ha
  simp [h a ha]

theorem blockOf_eq_nil (i : Nat) (l : List Action) (h : ∀ a ∈ l, a.src ≠ i) :
    blockOf i l = [] := by
  simp only [blockOf, List.filter_eq_nil_iff]
  intro a ha
  simp [h a ha]

theorem blockOf_handle_lt (w : World) (cs : List Message) (k i : Nat) (h : i < k) :
    blockOf i (handleCommandsFrom w k cs) = [] := by
  apply blockOf_eq_nil
  intro a ha
  have := handleCommandsFrom_src w cs k a ha
  omega

/-- No action is done for a command the loop never takes. -/
theorem blockOf_handle_beyond (w : World) (cs : List Message) :
    ∀ k i, k + framesTaken w cs ≤ i → blockOf i (handleCommandsFrom w k cs) = [] := by
  induction cs with
  | nil => intro k i _; simp [handleCommandsFrom, blockOf]
  | cons c cs ih =>
    intro k i h
    rw [framesTaken_cons] at h
    rw [handleCommandsFrom_cons]
    have hki : k ≠ i := by split at h <;> omega
    rw [blockOf_cons, blockOf_append]
    simp only [Action.src, hki, if_false]
    rw [blockOf_eq_nil i (replyActions w k c)
      (fun a ha => by rw [replyActions_src w k c a ha]; exact hki)]
    split
    · rename_i hg
      simp only [hg, if_true] at h
      simpa using ih (k + 1) i (by omega)
    · simp [blockOf]

/-- The actions done for a command the loop takes: the ack, then the reply part. -/
theorem blockOf_handle_taken (w : World) (cs : List Message) :
    ∀ k i c, cs[i]? = some c → i < framesTaken w cs →
      blockOf (k + i) (handleCommandsFrom w k cs)
        = .send (k + i) c.Ack :: replyActions w (k + i) c := by
  induction cs with
  | nil => intro k i c hc; simp at hc
  | cons c0 cs ih =>
    intro k i c hc hi
    rw [framesTaken_cons] at hi
    rw [handleCommandsFrom_cons]
    cases i with
    | zero =>
      simp only [List.getElem?_cons_zero, Option.some.injEq] at hc
      subst hc
      rw [blockOf_cons, blockOf_append]
      simp only [Action.src, Nat.add_zero, if_true]
      rw [blockOf_eq_self (k) (replyActions w k c0) (replyActions_src w k c0)]
      have : blockOf k (if goesOn w c0 then handleCommandsFrom w (k + 1) cs else []) = [] := by
        split
        · exact blockOf_handle_lt w cs (k + 1) k (by omega)
        · rfl
      rw [this, List.append_nil]
    | succ i =>
      simp only [List.getElem?_cons_succ] at hc
      have hg : goesOn w c0 = true := by
        by_contra hg
        simp [hg] at hi
      simp only [hg, if_true] at hi ⊢
      have hne : k ≠ k + (i + 1) := by omega
      rw [blockOf_cons, blockOf_append]
      simp only [Action.src, hne, if_false]
      rw [blockOf_eq_nil (k + (i + 1)) (replyActions w k c0)
        (fun a ha => by rw [replyActions_src w k c0 a ha]; exact hne)]
      have := ih (k + 1) i c hc (by omega)
      rw [show k + 1 + i = k + (i + 1) by omega] at this
      simpa using this

theorem framesTaken_le (w : World) (cs : List Message) : framesTaken w cs ≤ cs.length := by
  induction cs with
  | nil => simp [framesTaken]
  | cons c cs ih =>
    rw [framesTaken_cons]
    split
    · simp; omega
    · simp

/-- When every file asked for can be read, the loop takes every command. -/
theorem framesTaken_eq_length (w : World) (cs : List Message)
    (h : ∀ file, (w.readFile file).isSome) : framesTaken w cs = cs.length := by
  induction cs with
  | nil => simp [framesTaken]
  | cons c cs ih =>
    have hg : goesOn w c = true := by
      simp only [goesOn]
      split
      · rfl
      · split
        · rfl
        · split
          · rfl
          · exact h _
    rw [framesTaken_cons, hg, if_pos rfl, ih, List.length_cons]

theorem Inv_start (w : World) (cs : List Message) (i : Nat) :
    Inv i (msgsOf (blockOf i (handleCommands w cs))) (Session.start w cs) ∧
      (okTail (blockOf i (handleCommands w cs))) := by
  have hok : okTail (blockOf i (handleCommands w cs)) := by
    by_cases hi : i < framesTaken w cs
    · have hlt : i < cs.length := Nat.lt_of_lt_of_le hi (framesTaken_le w cs)
      have hc : cs[i]? = some cs[i] := List.getElem?_eq_getElem hlt
      have := blockOf_handle_taken w cs 0 i _ hc hi
      simp only [Nat.zero_add] at this
      rw [handleCommands, this]
      exact replyActions_okTail w i _
    · have := blockOf_handle_beyond w cs 0 i (by omega)
      rw [handleCommands, this]
      trivial
  refine ⟨?_, hok⟩
  simp only [Inv, Session.start, proj_nil, List.nil_append, List.length_nil]
  exact ⟨trivial, Or.inl trivial, Nat.zero_le _, by simp, hok⟩

/-! ## Lemmas on the writer pump -/

theorem writeMessages_ackKind (m : Message) (rest ack : List Message) (closed : Bool)
    (h : m.msgType = 1) :
    writeMessages (m :: rest) ack closed
      = (.write m :: (writeMessages rest ack closed).1, (writeMessages rest ack closed).2) := by
  simp [writeMessages, h]

theorem writeMessages_noAck (m : Message) (rest : List Message) (closed : Bool)
    (h : m.msgType ≠ 1) :
    writeMessages (m :: rest) [] closed
      = ([.write m], if closed then .ackClosed else .waitingForAck) := by
  simp [writeMessages, h]

theorem writeMessages_badType (m a : Message) (rest ack : List Message) (closed : Bool)
    (h : m.msgType ≠ 1) (ha : a.msgType ≠ 1) :
    writeMessages (m :: rest) (a :: ack) closed
      = ([.write m, .recvAck a], .fatalInvalidMsgtype a) := by
  simp [writeMessages, h, ha]

theorem writeMessages_badId (m a : Message) (rest ack : List Message) (closed : Bool)
    (h : m.msgType ≠ 1) (ha : a.msgType = 1) (hid : m.msgId ≠ a.msgId) :
    writeMessages (m :: rest) (a :: ack) closed
      = ([.write m, .recvAck a], .fatalUuidMismatch m.msgId a.msgId) := by
  simp [writeMessages, h, ha, hid]

theorem writeMessages_matched (m a : Message) (rest ack : List Message) (closed : Bool)
    (h : m.msgType ≠ 1) (ha : a.msgType = 1) (hid : m.msgId = a.msgId) :
    writeMessages (m :: rest) (a :: ack) closed
      = (.write m :: .recvAck a :: (writeMessages rest ack closed).1,
          (writeMessages rest ack closed).2) := by
  simp [writeMessages, h, ha, hid]

/-- The five ways one iteration of the loop of `writeMessages` can go. -/
theorem writeMessages_cases (m : Message) (rest ack : List Message) (closed : Bool) :
    (m.msgType = 1 ∧ writeMessages (m :: rest) ack closed
      = (.write m :: (writeMessages rest ack closed).1, (writeMessages rest ack closed).2)) ∨
    (m.msgType ≠ 1 ∧ ack = [] ∧ writeMessages (m :: rest) ack closed
      = ([.write m], if closed then .ackClosed else .waitingForAck)) ∨
    (m.msgType ≠ 1 ∧ ∃ a ack1, ack = a :: ack1 ∧ (a.msgType ≠ 1 ∨ m.msgId ≠ a.msgId) ∧
      (writeMessages (m :: rest) ack closed).1 = [.write m, .recvAck a] ∧
      (writeMessages (m :: rest) ack closed).2.isFatal = true) ∨
    (m.msgType ≠ 1 ∧ ∃ a ack1, ack = a :: ack1 ∧ a.msgType = 1 ∧ m.msgId = a.msgId ∧
      writeMessages (m :: rest) ack closed
        = (.write m :: .recvAck a :: (writeMessages rest ack1 closed).1,
            (writeMessages rest ack1 closed).2)) := by
  by_cases h : m.msgType = 1
  · exact Or.inl ⟨h, writeMessages_ackKind m rest ack closed h⟩
  · cases ack with
    | nil => exact Or.inr (Or.inl ⟨h, rfl, writeMessages_noAck m rest closed h⟩)
    | cons a ack1 =>
      by_cases ha : a.msgType = 1
      · by_cases hid : m.msgId = a.msgId
        · exact Or.inr (Or.inr (Or.inr ⟨h, a, ack1, rfl, ha, hid,
            writeMessages_matched m a rest ack1 closed h ha hid⟩))
        · refine Or.inr (Or.inr (Or.inl ⟨h, a, ack1, rfl, Or.inr hid, ?_, ?_⟩)) <;>
            simp [writeMessages_badId m a rest ack1 closed h ha hid, WriterEnd.isFatal]
      · refine Or.inr (Or.inr (Or.inl ⟨h, a, ack1, rfl, Or.inl ha, ?_, ?_⟩)) <;>
          simp [writeMessages_badType m a rest ack1 closed h ha, WriterEnd.isFatal]

/-- Between a written frame that is not an ack and the next written frame, the pump
took from the ack channel, right after the write, an ack with the same id. -/
theorem writeMessages_between (messages : List Message) :
    ∀ (ack : List Message) (closed : Bool) (pre mid post : List WEvent) (f g : Message),
      (writeMessages messages ack closed).1 = pre ++ .write f :: (mid ++ .write g :: post) →
      f.msgType ≠ 1 →
      ∃ a mid1, mid = .recvAck a :: mid1 ∧ a.msgType = 1 ∧ a.msgId = f.msgId := by
  induction messages with
  | nil =>
    intro ack closed pre mid post f g h
    simp [writeMessages] at h
  | cons m rest ih =>
    intro ack closed pre mid post f g h hf
    rcases writeMessages_cases m rest ack closed with
      ⟨hm, e⟩ | ⟨hm, _, e⟩ | ⟨hm, a, ack1, _, _, e, _⟩ | ⟨hm, a, ack1, _, ha, hid, e⟩
    · rw [e] at h
      cases pre with
      | nil =>
        simp only [List.nil_append, List.cons.injEq, WEvent.write.injEq] at h
        exact absurd (h.1 ▸ hm) hf
      | cons e0 pre1 =>
        simp only [List.cons_append, List.cons.injEq] at h
        exact ih ack closed pre1 mid post f g h.2 hf
    · rw [e] at h
      cases pre with
      | nil => cases mid <;> simp at h
      | cons e0 pre1 => simp at h
    · rw [e] at h
      cases pre with
      | nil =>
        cases mid with
        | nil => simp at h
        | cons e1 mid1 => simp at h
      | cons e0 pre1 =>
        cases pre1 with
        | nil => simp at h
        | cons e1 pre2 => simp at h
    · rw [e] at h
      cases pre with
      | nil =>
        cases mid with
        | nil => simp at h
        | cons e1 mid1 =>
          simp only [List.nil_append, List.cons_append, List.cons.injEq,
            WEvent.write.injEq] at h
          obtain ⟨hmf, he1, _⟩ := h
          exact ⟨a, mid1, by rw [he1], ha, by rw [← hmf, hid]⟩
      | cons e0 pre1 =>
        cases pre1 with
        | nil => simp at h
        | cons e1 pre2 =>
          simp only [List.cons_append, List.cons.injEq] at h
          exact ih ack1 closed pre2 mid post f g h.2.2 hf

/-- Whatever the pump takes from the ack channel, it takes right after writing a frame
that is not an ack. -/
theorem writeMessages_recv_after_write (messages : List Message) :
    ∀ (ack : List Message) (closed : Bool) (pre post : List WEvent) (a : Message),
      (writeMessages messages ack closed).1 = pre ++ .recvAck a :: post →
      ∃ pre1 f, pre = pre1 ++ [.write f] ∧ f.msgType ≠ 1 := by
  induction messages with
  | nil =>
    intro ack closed pre post a h
    simp [writeMessages] at h
  | cons m rest ih =>
    intro ack closed pre post a h
    rcases writeMessages_cases m rest ack closed with
      ⟨hm, e⟩ | ⟨hm, _, e⟩ | ⟨hm, a0, ack1, _, _, e, _⟩ | ⟨hm, a0, ack1, _, ha, hid, e⟩
    · rw [e] at h
      cases pre with
      | nil => simp at h
      | cons e0 pre1 =>
        simp only [List.cons_append, List.cons.injEq] at h
        obtain ⟨p, f, hp, hf⟩ := ih ack closed pre1 post a h.2
        exact ⟨e0 :: p, f, by rw [hp]; rfl, hf⟩
    · rw [e] at h
      cases pre with
      | nil => simp at h
      | cons e0 pre1 => simp at h
    · rw [e] at h
      cases pre with
      | nil => simp at h
      | cons e0 pre1 =>
        cases pre1 with
        | nil =>
          simp only [List.cons_append, List.nil_append, List.cons.injEq] at h
          exact ⟨[], m, by rw [← h.1]; rfl, hm⟩
        | cons e1 pre2 => simp at h
    · rw [e] at h
      cases pre with
      | nil => simp at h
      | cons e0 pre1 =>
        cases pre1 with
        | nil =>
          simp only [List.cons_append, List.nil_append, List.cons.injEq] at h
          exact ⟨[], m, by rw [← h.1]; rfl, hm⟩
        | cons e1 pre2 =>
          simp only [List.cons_append, List.cons.injEq] at h
          obtain ⟨p, f, hp, hf⟩ := ih ack1 closed pre2 post a h.2.2
          exact ⟨e0 :: e1 :: p, f, by rw [hp]; rfl, hf⟩

/-- An ack taken after a written frame whose id it does not carry ends the run there,
in a call of `log.Fatalf`. -/
theorem writeMessages_mismatch (messages : List Message) :
    ∀ (ack : List Message) (closed : Bool) (pre post : List WEvent) (f a : Message),
      (writeMessages messages ack closed).1 = pre ++ .write f :: .recvAck a :: post →
      a.msgId ≠ f.msgId →
      post = [] ∧ (writeMessages messages ack closed).2.isFatal = true := by
  induction messages with
  | nil =>
    intro ack closed pre post f a h
    simp [writeMessages] at h
  | cons m rest ih =>
    intro ack closed pre post f a h hne
    rcases writeMessages_cases m rest ack closed with
      ⟨hm, e⟩ | ⟨hm, _, e⟩ | ⟨hm, a0, ack1, _, _, e, efin⟩ | ⟨hm, a0, ack1, _, ha, hid, e⟩
    · rw [e] at h ⊢
      cases pre with
      | nil =>
        simp only [List.nil_append, List.cons.injEq] at h
        obtain ⟨p, f1, hp, _⟩ := writeMessages_recv_after_write rest ack closed [] post a h.2
        simp at hp
      | cons e0 pre1 =>
        simp only [List.cons_append, List.cons.injEq] at h
        exact ih ack closed pre1 post f a h.2 hne
    · rw [e] at h
      cases pre with
      | nil => simp at h
      | cons e0 pre1 => simp at h
    · rw [e] at h
      cases pre with
      | nil =>
        simp only [List.nil_append, List.cons.injEq] at h
        exact ⟨h.2.2.symm, efin⟩
      | cons e0 pre1 =>
        cases pre1 with
        | nil => simp at h
        | cons e1 pre2 => simp at h
    · rw [e] at h ⊢
      cases pre with
      | nil =>
        simp only [List.nil_append, List.cons.injEq, WEvent.write.injEq,
          WEvent.recvAck.injEq] at h
        obtain ⟨hmf, haa, _⟩ := h
        exact absurd (by rw [← haa, ← hmf, hid]) hne
      | cons e0 pre1 =>
        cases pre1 with
        | nil => simp at h
        | cons e1 pre2 =>
          simp only [List.cons_append, List.cons.injEq] at h
          exact ih ack1 closed pre2 post f a h.2.2 hne

/-- After an ack of kind 1 with the id of the frame just written, the run goes on as
a run over the frames and acks that are left. -/
theorem writeMessages_resume (messages : List Message) :
    ∀ (ack : List Message) (closed : Bool) (pre post : List WEvent) (f a : Message),
      (writeMessages messages ack closed).1 = pre ++ .write f :: .recvAck a :: post →
      a.msgType = 1 → a.msgId = f.msgId →
      ∃ sent rest used ack1, messages = sent ++ f :: rest ∧ ack = used ++ a :: ack1 ∧
        post = (writeMessages rest ack1 closed).1 ∧
        (writeMessages messages ack closed).2 = (writeMessages rest ack1 closed).2 := by
  induction messages with
  | nil =>
    intro ack closed pre post f a h
    simp [writeMessages] at h
  | cons m rest ih =>
    intro ack closed pre post f a h hk hid
    rcases writeMessages_cases m rest ack closed with
      ⟨hm, e⟩ | ⟨hm, _, e⟩ | ⟨hm, a0, ack1, hack, hbad, e, _⟩ | ⟨hm, a0, ack1, hack, ha, hid0, e⟩
    · rw [e] at h ⊢
      cases pre with
      | nil =>
        simp only [List.nil_append, List.cons.injEq] at h
        obtain ⟨p, f1, hp, _⟩ := writeMessages_recv_after_write rest ack closed [] post a h.2
        simp at hp
      | cons e0 pre1 =>
        simp only [List.cons_append, List.cons.injEq] at h
        obtain ⟨sent, rest1, used, ack2, h1, h2, h3, h4⟩ :=
          ih ack closed pre1 post f a h.2 hk hid
        exact ⟨m :: sent, rest1, used, ack2, by rw [h1]; rfl, h2, h3, h4⟩
    · rw [e] at h
      cases pre with
      | nil => simp at h
      | cons e0 pre1 => simp at h
    · rw [e] at h
      cases pre with
      | nil =>
        simp only [List.nil_append, List.cons.injEq, WEvent.write.injEq,
          WEvent.recvAck.injEq] at h
        obtain ⟨hmf, haa, _⟩ := h
        subst hmf haa
        rcases hbad with hb | hb
        · exact absurd hk hb
        · exact absurd hid.symm hb
      | cons e0 pre1 =>
        cases pre1 with
        | nil => simp at h
        | cons e1 pre2 => simp at h
    · rw [e] at h ⊢
      cases pre with
      | nil =>
        simp only [List.nil_append, List.cons.injEq, WEvent.write.injEq,
          WEvent.recvAck.injEq] at h
        obtain ⟨hmf, haa, hpost⟩ := h
        subst hmf haa
        exact ⟨[], rest, [], ack1, rfl, hack, hpost.symm, rfl⟩
      | cons e0 pre1 =>
        cases pre1 with
        | nil => simp at h
        | cons e1 pre2 =>
          simp only [List.cons_append, List.cons.injEq] at h
          obtain ⟨sent, rest1, used, ack2, h1, h2, h3, h4⟩ :=
            ih ack1 closed pre2 post f a h.2.2 hk hid
          exact ⟨m :: sent, rest1, a0 :: used, ack2, by rw [h1]; rfl,
            by rw [hack, h2]; rfl, h3, h4⟩

/-! ## Lemmas on the reader pump -/

theorem length_le_encodeAll (fs : List Message) : fs.length ≤ (encodeAll fs).length := by
  induction fs with
  | nil => simp [encodeAll]
  | cons f fs ih =>
    simp only [encodeAll, List.length_cons, List.length_append, Bytes_layout, List.cons_append,
      List.nil_append]
    omega

theorem ReadMessage_nil : ReadMessage [] = .returned Message.zero (some .EOF) [] := by
  decide

theorem readMessagesLoop_encodeAll (fs : List Message) :
    ∀ (fuel : Nat) (commands ack : List Message), fs.length < fuel →
      (∀ f ∈ fs, WellFormed f) →
      readMessagesLoop fuel (encodeAll fs) commands ack
        = ⟨commands ++ fs.filter (fun f => f.msgType = 0),
            ack ++ fs.filter (fun f => f.msgType = 1), .disconnected .EOF⟩ := by
  induction fs with
  | nil =>
    intro fuel commands ack hfuel _
    cases fuel with
    | zero => simp at hfuel
    | succ n => simp [encodeAll, readMessagesLoop, ReadMessage_nil]
  | cons f fs ih =>
    intro fuel commands ack hfuel hwf
    cases fuel with
    | zero => simp at hfuel
    | succ n =>
      obtain ⟨hk, hid, hlen⟩ := hwf f (List.mem_cons_self _ _)
      have hrest : ∀ g ∈ fs, WellFormed g := fun g hg => hwf g (List.mem_cons_of_mem _ hg)
      simp only [encodeAll, readMessagesLoop, ReadMessage_Bytes_append f _ hk hid hlen]
      rw [ih n _ _ (by simpa using hfuel) hrest]
      rcases hk with hk | hk <;> simp [hk]

/-! ## Further lemmas on the pumps -/

theorem Supplies_cons_ackKind (f : Message) (fs ack left : List Message)
    (h : f.msgType = 1) : Supplies (f :: fs) ack left ↔ Supplies fs ack left := by
  simp [Supplies, h]

theorem Supplies_cons_other (f : Message) (fs ack left : List Message)
    (h : f.msgType ≠ 1) :
    Supplies (f :: fs) ack left ↔
      ∃ a rest, ack = a :: rest ∧ a.msgType = 1 ∧ a.msgId = f.msgId ∧
        Supplies fs rest left := by
  simp [Supplies, h]

/-- With the acks for the frames `sent` supplied, the pump writes `sent`, whole and in
order, and is then where a run over the frames after them and the acks left starts. -/
theorem writeMessages_supplied (sent : List Message) :
    ∀ (ack left more : List Message) (closed : Bool), Supplies sent ack left →
      writes (writeMessages (sent ++ more) ack closed).1
          = sent ++ writes (writeMessages more left closed).1 ∧
        written (writeMessages (sent ++ more) ack closed).1
          = encodeAll sent ++ written (writeMessages more left closed).1 ∧
        (writeMessages (sent ++ more) ack closed).2 = (writeMessages more left closed).2 := by
  induction sent with
  | nil =>
    intro ack left more closed h
    simp only [Supplies] at h
    subst h
    simp [encodeAll]
  | cons f fs ih =>
    intro ack left more closed h
    by_cases hf : f.msgType = 1
    · rw [Supplies_cons_ackKind f fs ack left hf] at h
      obtain ⟨h1, h2, h3⟩ := ih ack left more closed h
      rw [List.cons_append, writeMessages_ackKind f _ ack closed hf]
      simp only [writes, written, encodeAll, h1, h2, h3, List.cons_append,
        List.append_assoc, and_self]
    · rw [Supplies_cons_other f fs ack left hf] at h
      obtain ⟨a, rest, rfl, ha, hid, hs⟩ := h
      obtain ⟨h1, h2, h3⟩ := ih rest left more closed hs
      rw [List.cons_append, writeMessages_matched f a _ rest closed hf ha hid.symm]
      simp only [writes, written, encodeAll, h1, h2, h3, List.cons_append,
        List.append_assoc, and_self]

/-- Whatever the pump takes from the ack channel was delivered by the ack channel. -/
theorem writeMessages_recv_mem (messages : List Message) :
    ∀ (ack : List Message) (closed : Bool) (a : Message),
      .recvAck a ∈ (writeMessages messages ack closed).1 → a ∈ ack := by
  induction messages with
  | nil =>
    intro ack closed a h
    simp [writeMessages] at h
  | cons m rest ih =>
    intro ack closed a h
    rcases writeMessages_cases m rest ack closed with
      ⟨_, e⟩ | ⟨_, _, e⟩ | ⟨_, a0, ack1, hack, _, e, _⟩ | ⟨_, a0, ack1, hack, _, _, e⟩
    · rw [e] at h
      simp only [List.mem_cons] at h
      rcases h with h | h
      · cases h
      · exact ih ack closed a h
    · rw [e] at h
      simp at h
    · rw [e] at h
      simp only [List.mem_cons, WEvent.recvAck.injEq, List.mem_nil_iff, or_false] at h
      rcases h with h | h
      · cases h
      · rw [hack, h]
        exact List.mem_cons_self _ _
    · rw [e] at h
      simp only [List.mem_cons, WEvent.recvAck.injEq] at h
      rcases h with h | h | h
      · cases h
      · rw [hack, h]
        exact List.mem_cons_self _ _
      · rw [hack]
        exact List.mem_cons_of_mem _ (ih ack1 closed a h)

/-- With acks of kind 1 only on the ack channel, no run ends in
`log.Fatalf("Invalid msgtype %v", a)`. -/
theorem writeMessages_no_invalid_msgtype (messages : List Message) :
    ∀ (ack : List Message) (closed : Bool), (∀ a ∈ ack, a.msgType = 1) →
      ∀ a, (writeMessages messages ack closed).2 ≠ .fatalInvalidMsgtype a := by
  induction messages with
  | nil =>
    intro ack closed _ a
    simp [writeMessages]
  | cons m rest ih =>
    intro ack closed hk a
    by_cases hm : m.msgType = 1
    · rw [writeMessages_ackKind m rest ack closed hm]
      exact ih ack closed hk a
    · cases ack with
      | nil =>
        rw [writeMessages_noAck m rest closed hm]
        cases closed <;> simp
      | cons a0 ack1 =>
        have ha0 : a0.msgType = 1 := hk a0 (List.mem_cons_self _ _)
        have hk1 : ∀ b ∈ ack1, b.msgType = 1 := fun b hb => hk b (List.mem_cons_of_mem _ hb)
        by_cases hid : m.msgId = a0.msgId
        · rw [writeMessages_matched m a0 rest ack1 closed hm ha0 hid]
          exact ih ack1 closed hk1 a
        · rw [writeMessages_badId m a0 rest ack1 closed hm ha0 hid]
          simp

/-- Only frames of kind 1 are sent on the channel `ack`, whatever the stream and
however many iterations the loop makes. -/
theorem readMessagesLoop_ack_kind (fuel : Nat) :
    ∀ (conn : List Byte) (commands ack : List Message), (∀ a ∈ ack, a.msgType = 1) →
      ∀ a ∈ (readMessagesLoop fuel conn commands ack).ack, a.msgType = 1 := by
  induction fuel with
  | zero =>
    intro conn commands ack h a ha
    exact h a ha
  | succ n ih =>
    intro conn commands ack h a ha
    unfold readMessagesLoop at ha
    split at ha
    · exact h a ha
    · exact h a ha
    · rename_i m conn1 _
      refine ih conn1 _ _ ?_ a ha
      intro b hb
      split at hb
      · rename_i hm
        rcases List.mem_append.mp hb with hb | hb
        · exact h b hb
        · simp only [List.mem_singleton] at hb
          rw [hb]; exact hm
      · exact h b hb

/-- The loop of `readMessages` ends within one iteration more than the stream has
bytes: the model never runs out of fuel. -/
theorem readMessagesLoop_ends (fuel : Nat) :
    ∀ (conn : List Byte) (commands ack : List Message), conn.length < fuel →
      (readMessagesLoop fuel conn commands ack).status ≠ .outOfFuel := by
  induction fuel with
  | zero =>
    intro conn commands ack h
    simp at h
  | succ n ih =>
    intro conn commands ack h
    unfold readMessagesLoop
    split
    · simp
    · simp
    · rename_i m conn1 hR
      have := (ReadMessage_ok_inv conn conn1 m hR).2.2.2
      exact ih conn1 _ _ (by omega)

/-- When `handleCommands` does nothing for the command `c` after the ack, the frames
`writeCh` carries for `c` are none yet or the ack alone, and the ack alone once the
loop has done all it does and has taken `c`. -/
theorem session_no_reply (w : World) (readCh : List Message) (st : Session)
    (hrun : Reaches (Session.start w readCh) st) (i : Nat) (c : Message)
    (hc : readCh[i]? = some c) (hr : replyActions w i c = []) :
    (enqueuedFor i st = [] ∨ enqueuedFor i st = [c.Ack]) ∧
      (st.todo = [] → i < framesTaken w readCh → enqueuedFor i st = [c.Ack]) := by
  have hinv := Inv_reaches i _ _ _ (Inv_start w readCh i).1 hrun
  obtain ⟨hsum, _, _, hkind, _⟩ := hinv
  rw [← enqueuedFor_eq] at hsum
  by_cases hi : i < framesTaken w readCh
  · have hB := blockOf_handle_taken w readCh 0 i c hc hi
    simp only [Nat.zero_add, hr] at hB
    rw [handleCommands, hB] at hsum
    simp only [msgsOf] at hsum
    have hq : enqueuedFor i st = [] ∨ enqueuedFor i st = [c.Ack] := by
      cases hq : enqueuedFor i st with
      | nil => exact Or.inl rfl
      | cons q qs =>
        rw [hq] at hsum
        simp only [List.cons_append, List.cons.injEq, List.append_eq_nil] at hsum
        obtain ⟨rfl, rfl, _⟩ := hsum
        exact Or.inr rfl
    refine ⟨hq, ?_⟩
    intro htodo _
    rcases hq with hq | hq
    · rw [hq, htodo] at hsum
      simp only [blockOf, List.filter_nil, msgsOf, List.append_nil, List.nil_append] at hsum
      have hmem : c.Ack ∈ proj i st.pending := by rw [hsum]; exact List.mem_cons_self _ _
      have h0 := hkind _ hmem
      rw [Ack_msgType] at h0
      exact absurd h0 (by decide)
    · exact hq
  · have hB := blockOf_handle_beyond w readCh 0 i (by omega)
    rw [handleCommands, hB] at hsum
    simp only [msgsOf, List.append_nil] at hsum
    have hq : enqueuedFor i st = [] := (List.append_eq_nil.mp hsum).1
    exact ⟨Or.inl hq, fun _ h => absurd h hi⟩

theorem handleCommandsFrom_no_reply (w : World) (i : Nat) (c : Message)
    (rest : List Message) (hr : replyActions w i c = []) (hg : goesOn w c = true) :
    handleCommandsFrom w i (c :: rest) = .send i c.Ack :: handleCommandsFrom w (i + 1) rest := by
  rw [handleCommandsFrom_cons, hr, hg]
  rfl

theorem replyActions_short (w : World) (i : Nat) (c : Message) (h : c.length < 2) :
    replyActions w i c = [] ∧ goesOn w c = true := by
  simp [replyActions, goesOn, h]

theorem replyActions_nil_map (w : World) (i : Nat) (c : Message)
    (h : w.commandKeys c.msg = []) :
    replyActions w i c = [] ∧ goesOn w c = true := by
  simp [replyActions, goesOn, h]

theorem Ack_of_length_ne_one (c : Message) (h : c.length ≠ 1) :
    c.Ack = ⟨1, c.msgId, 0, []⟩ := by
  simp [Message.Ack, h, Message.zero]

/-! ## Properties of the program -/

/-- C1 (round trip): for every Message `f` whose msgType is 0 or 1, whose msgId has
exactly 16 bytes and whose length equals the number of bytes of msg, `ReadMessage` on a
stream holding exactly `f.Bytes()` returns a nil error and a Message equal to `f` in
all four fields, with nothing left on the stream. -/
theorem ReadMessage_Bytes_round_trip (f : Message)
    (hk : f.msgType = 0 ∨ f.msgType = 1) (hid : f.msgId.length = 16)
    (hlen : f.length.val = f.msg.length) :
    ReadMessage f.Bytes = .returned f none [] ∧
      ∀ m err rest, ReadMessage f.Bytes = .returned m err rest →
        err = none ∧ m.msgType = f.msgType ∧ m.msgId = f.msgId ∧ m.length = f.length ∧
          m.msg = f.msg := by
  have h := ReadMessage_Bytes_append f [] hk hid hlen
  rw [List.append_nil] at h
  refine ⟨h, ?_⟩
  intro m err rest hm
  rw [h] at hm
  cases hm
  exact ⟨rfl, rfl, rfl, rfl, rfl⟩

theorem ReadMessage_Bytes_round_trip_witness :
    ReadMessage (Message.mk 1 (List.replicate 16 9) 3 [104, 105, 33]).Bytes
      = .returned (Message.mk 1 (List.replicate 16 9) 3 [104, 105, 33]) none [] :=
  (ReadMessage_Bytes_round_trip (Message.mk 1 (List.replicate 16 9) 3 [104, 105, 33])
    (by decide) (by decide) (by decide)).1

/-- C2 (wire layout): for every Message `m`, `m.Bytes()` is the byte 0x16, the byte
0x16, the msgType byte, the bytes of msgId, four bytes that are `m.length` in
big-endian order, then the bytes of msg; hence with a 16-byte msgId and length equal to
the byte count of msg, `m.Bytes()` has exactly 23 + length bytes. -/
theorem Bytes_wire_layout (m : Message) :
    (∃ b0 b1 b2 b3 : Byte,
      m.Bytes = [0x16, 0x16, m.msgType] ++ m.msgId ++ [b0, b1, b2, b3] ++ m.msg ∧
      b0.val * 2 ^ 24 + b1.val * 2 ^ 16 + b2.val * 2 ^ 8 + b3.val = m.length.val) ∧
    (m.msgId.length = 16 → m.length.val = m.msg.length →
      m.Bytes.length = 23 + m.length.val) := by
  constructor
  · refine ⟨toByte (m.length.val >>> 24), toByte (m.length.val >>> 16),
      toByte (m.length.val >>> 8), toByte m.length.val, ?_, ?_⟩
    · simp [Bytes_layout, putUint32, syn]
    · have hn := m.length.isLt
      simp only [toByte, Nat.shiftRight_eq_div_pow]
      omega
  · intro hid hlen
    simp only [Bytes_layout, List.length_append, List.length_cons, List.length_nil,
      length_putUint32, hid, hlen]
    omega

theorem Bytes_wire_layout_witness :
    (Message.mk 0 (List.replicate 16 7) 2 [65, 66]).Bytes.length = 23 + 2 :=
  (Bytes_wire_layout (Message.mk 0 (List.replicate 16 7) 2 [65, 66])).2
    (by decide) (by decide)

/-- C3 (sync check), the code at the failing input: a stream that starts with the
bytes 0x00 0x00 instead of 0x16 0x16 and goes on with a kind byte, sixteen id bytes
and a zero length is accepted as a frame, with a nil error. -/
theorem ReadMessage_accepts_bad_sync :
    ReadMessage ([0x00, 0x00, 0x00] ++ List.replicate 16 7 ++ [0, 0, 0, 0])
      = .returned (Message.mk 0 (List.replicate 16 7) 0 []) none [] := by
  decide

/-- C4 (truncated payload), as the claim states it, fails: on a stream with a valid
sync marker, kind 0, sixteen id bytes, a declared length of 2 and a single payload
byte, `ReadMessage` returns nothing to its caller; the process is ended. -/
theorem ReadMessage_truncated_not_returned :
    ¬ ∃ m err rest,
      ReadMessage ([0x16, 0x16, 0x00] ++ List.replicate 16 7 ++ [0, 0, 0, 2] ++ [65])
        = .returned m err rest := by
  have h : ReadMessage ([0x16, 0x16, 0x00] ++ List.replicate 16 7 ++ [0, 0, 0, 2] ++ [65])
      = .fatal (.cantReadPayload .EOF) := by decide
  rw [h]
  rintro ⟨m, err, rest, hm⟩
  cases hm

/-- C4 (truncated payload), amended: for every stream that carries a valid sync marker,
a kind byte of 0 or 1, 16 id bytes and a declared length N, and then ends after fewer
than N payload bytes, `ReadMessage` does not return: it ends the process through
`log.Fatalf("cant read payload ...")` on the end-of-stream error, and so does the
`readMessages` that called it, which never gets to treat it as a disconnect. -/
theorem ReadMessage_truncated_fatal (k : Byte) (id payload : List Byte) (n : U32)
    (hk : k = 0 ∨ k = 1) (hid : id.length = 16) (hshort : payload.length < n.val) :
    ReadMessage ([syn, syn, k] ++ id ++ putUint32 n ++ payload)
        = .fatal (.cantReadPayload .EOF) ∧
      (readMessages ([syn, syn, k] ++ id ++ putUint32 n ++ payload)).status
        = .fatal (.cantReadPayload .EOF) := by
  have h16 : readFull 16 (id ++ (putUint32 n ++ payload)) = .ok id (putUint32 n ++ payload) := by
    rw [← hid]; exact readFull_append _ _
  have h4 : readFull 4 (putUint32 n ++ payload) = .ok (putUint32 n) payload := by
    rw [← length_putUint32 n]; exact readFull_append _ _
  have hk2 : ¬ (k ≠ 0 ∧ k ≠ 1) := by
    rcases hk with h | h <;> simp [h]
  have hR : ReadMessage ([syn, syn, k] ++ id ++ putUint32 n ++ payload)
      = .fatal (.cantReadPayload .EOF) := by
    simp only [ReadMessage, synLoop, List.cons_append, List.nil_append, List.append_assoc,
      readFull_cons, List.headD_cons, Message.zero, hk2, if_false, h16, h4,
      uint32BE_putUint32, payloadLoop_short _ _ _ hshort]
  refine ⟨hR, ?_⟩
  simp only [readMessages, readMessagesLoop, hR]

theorem ReadMessage_truncated_fatal_witness :
    ReadMessage ([syn, syn, 1] ++ List.replicate 16 7 ++ putUint32 5 ++ [65, 66])
        = .fatal (.cantReadPayload .EOF) :=
  (ReadMessage_truncated_fatal 1 (List.replicate 16 7) [65, 66] 5
    (by decide) (by decide) (by decide)).1

/-- C5 (invalid kind): for every stream of at least three bytes whose third byte, the
kind byte, is neither 0 nor 1, `ReadMessage` returns a non-nil invalid-msgType error at
once: the message returned has only its msgType set, and every byte after the kind
byte is still on the stream. -/
theorem ReadMessage_invalid_kind (b0 b1 k : Byte) (rest : List Byte)
    (h0 : k ≠ 0) (h1 : k ≠ 1) :
    ReadMessage (b0 :: b1 :: k :: rest)
      = .returned { Message.zero with msgType := k } (some (.invalidMsgType k)) rest := by
  simp [ReadMessage, synLoop, readFull_cons, Message.zero, h0, h1]

theorem ReadMessage_invalid_kind_witness :
    ReadMessage (0x16 :: 0x16 :: 7 :: [1, 2, 3])
      = .returned { Message.zero with msgType := 7 } (some (.invalidMsgType 7)) [1, 2, 3] :=
  ReadMessage_invalid_kind 0x16 0x16 7 [1, 2, 3] (by decide) (by decide)

/-- C6 (ack identity): for every Message `m`, of any kind, length and payload,
`m.Ack()` has msgType 1 and a msgId equal to `m.msgId`. -/
theorem Ack_identity (m : Message) : m.Ack.msgType = 1 ∧ m.Ack.msgId = m.msgId := by
  unfold Message.Ack
  split <;> exact ⟨rfl, rfl⟩

/-- C7 (ack before reply): in every session of `handleCommands` over the commands
`readCh`, however its goroutines are scheduled, the frames put on `writeCh` for a
command `c` are none yet, or `c.Ack()` first (kind 1, the id of `c`) and after it at
most one more frame, of kind 0; so exactly one of them is an acknowledgment. Once the
loop has done all it does, the ack of every command it took is on `writeCh`. -/
theorem handleCommands_ack_before_reply (w : World) (readCh : List Message) (st : Session)
    (hrun : Reaches (Session.start w readCh) st) (i : Nat) (c : Message)
    (hc : readCh[i]? = some c) :
    c.Ack.msgType = 1 ∧ c.Ack.msgId = c.msgId ∧
    (enqueuedFor i st = [] ∨
      ∃ replies, enqueuedFor i st = c.Ack :: replies ∧ replies.length ≤ 1 ∧
        ∀ r ∈ replies, r.msgType = 0) ∧
    (st.todo = [] → i < framesTaken w readCh → enqueuedFor i st ≠ []) := by
  refine ⟨Ack_msgType c, Ack_msgId c, ?_⟩
  have hinv := Inv_reaches i _ _ _ (Inv_start w readCh i).1 hrun
  obtain ⟨hsum, _, _, hkind, _⟩ := hinv
  rw [← enqueuedFor_eq] at hsum
  by_cases hi : i < framesTaken w readCh
  · have hB := blockOf_handle_taken w readCh 0 i c hc hi
    simp only [Nat.zero_add] at hB
    rw [handleCommands, hB] at hsum
    simp only [msgsOf] at hsum
    obtain ⟨hlen, hk0⟩ := replyActions_msgs w i c
    constructor
    · cases hq : enqueuedFor i st with
      | nil => exact Or.inl rfl
      | cons q qs =>
        rw [hq] at hsum
        simp only [List.cons_append, List.cons.injEq] at hsum
        obtain ⟨rfl, hrest⟩ := hsum
        refine Or.inr ⟨qs, rfl, ?_, ?_⟩
        · have := congrArg List.length hrest
          simp only [List.length_append] at this
          omega
        · intro r hr
          exact hk0 r (by rw [← hrest]; exact List.mem_append_left _ hr)
    · intro htodo _ hq
      rw [hq, htodo] at hsum
      simp only [blockOf, List.filter_nil, msgsOf, List.append_nil, List.nil_append] at hsum
      have hmem : c.Ack ∈ proj i st.pending := by rw [hsum]; exact List.mem_cons_self _ _
      have h0 := hkind _ hmem
      rw [Ack_msgType] at h0
      exact absurd h0 (by decide)
  · have hB := blockOf_handle_beyond w readCh 0 i (by omega)
    rw [handleCommands, hB] at hsum
    simp only [msgsOf, List.append_nil] at hsum
    have hq : enqueuedFor i st = [] := (List.append_eq_nil.mp hsum).1
    exact ⟨Or.inl hq, fun _ h => absurd h hi⟩

theorem handleCommands_demo :
    handleCommands demoWorld [demoCommand]
      = [.send 0 demoCommand.Ack, .send 0 ⟨0, List.replicate 16 3, 2, [123, 125]⟩] := by
  decide

theorem handleCommands_ack_before_reply_witness :
    enqueuedFor 0 ⟨[], [], [(0, demoCommand.Ack),
        (0, ⟨0, List.replicate 16 3, 2, [123, 125]⟩)], false⟩ = [] ∨
      ∃ replies, enqueuedFor 0 ⟨[], [], [(0, demoCommand.Ack),
          (0, ⟨0, List.replicate 16 3, 2, [123, 125]⟩)], false⟩ = demoCommand.Ack :: replies ∧
        replies.length ≤ 1 ∧ ∀ r ∈ replies, r.msgType = 0 :=
  (handleCommands_ack_before_reply demoWorld [demoCommand]
    ⟨[], [], [(0, demoCommand.Ack), (0, ⟨0, List.replicate 16 3, 2, [123, 125]⟩)], false⟩
    (by
      unfold Reaches Session.start
      rw [handleCommands_demo]
      exact Relation.ReflTransGen.tail
        (Relation.ReflTransGen.tail Relation.ReflTransGen.refl (Step.send _ _ _ _ _))
        (Step.send _ _ _ _ _))
    0 demoCommand rfl).2.2.1

/-- C8 (one outstanding ack): in every run of `writeMessages`, for any outbound
sequence and any ack-in sequence, between the write of a frame `f` that is not an ack
(a Command-kind frame in particular) and the next write, the pump has taken from the
ack-in queue, right after writing `f`, a frame of kind 1 whose id equals that of `f`;
and whatever the pump takes from the ack-in queue it takes right after writing a frame
that is not an ack, so writing an Acknowledgment-kind frame consumes nothing. -/
theorem writeMessages_one_outstanding (messages ack : List Message) (closed : Bool) :
    (∀ (pre mid post : List WEvent) (f g : Message),
      (writeMessages messages ack closed).1 = pre ++ .write f :: (mid ++ .write g :: post) →
      f.msgType ≠ 1 →
      ∃ a mid1, mid = .recvAck a :: mid1 ∧ a.msgType = 1 ∧ a.msgId = f.msgId) ∧
    (∀ (pre post : List WEvent) (a : Message),
      (writeMessages messages ack closed).1 = pre ++ .recvAck a :: post →
      ∃ pre1 f, pre = pre1 ++ [.write f] ∧ f.msgType ≠ 1) :=
  ⟨writeMessages_between messages ack closed,
    writeMessages_recv_after_write messages ack closed⟩

theorem writeMessages_one_outstanding_witness :
    ∃ a mid1, [WEvent.recvAck ⟨1, [5], 0, []⟩] = .recvAck a :: mid1 ∧ a.msgType = 1 ∧
      a.msgId = (Message.mk 0 [5] 0 []).msgId :=
  (writeMessages_one_outstanding [⟨0, [5], 0, []⟩, ⟨0, [6], 0, []⟩] [⟨1, [5], 0, []⟩] true).1
    [] [.recvAck ⟨1, [5], 0, []⟩] [] ⟨0, [5], 0, []⟩ ⟨0, [6], 0, []⟩ (by decide) (by decide)

/-- C9 (ack mismatch is fatal): whenever `writeMessages`, having written a frame `f`,
takes from the ack-in queue a frame `a` whose id is not that of `f`, the run ends there
in a call of `log.Fatalf` and nothing further is written; when `a` has kind 1 and the
id of `f`, no error is raised at that point: the run goes on as a run over the outbound
frames after `f` and the acks after `a`. -/
theorem writeMessages_ack_mismatch_fatal (messages ack : List Message) (closed : Bool)
    (pre post : List WEvent) (f a : Message)
    (h : (writeMessages messages ack closed).1 = pre ++ .write f :: .recvAck a :: post) :
    (a.msgId ≠ f.msgId →
      post = [] ∧ (writeMessages messages ack closed).2.isFatal = true) ∧
    (a.msgType = 1 → a.msgId = f.msgId →
      ∃ sent rest used ack1, messages = sent ++ f :: rest ∧ ack = used ++ a :: ack1 ∧
        post = (writeMessages rest ack1 closed).1 ∧
        (writeMessages messages ack closed).2 = (writeMessages rest ack1 closed).2) :=
  ⟨writeMessages_mismatch messages ack closed pre post f a h,
    writeMessages_resume messages ack closed pre post f a h⟩

theorem writeMessages_ack_mismatch_fatal_witness :
    ([] : List WEvent) = [] ∧
      (writeMessages [⟨0, [5], 0, []⟩, ⟨0, [6], 0, []⟩] [⟨1, [7], 0, []⟩] true).2.isFatal
        = true :=
  (writeMessages_ack_mismatch_fatal [⟨0, [5], 0, []⟩, ⟨0, [6], 0, []⟩] [⟨1, [7], 0, []⟩] true
    [] [] ⟨0, [5], 0, []⟩ ⟨1, [7], 0, []⟩ (by decide)).1 (by decide)

/-- C10 (reader routing): for every inbound stream that is the bytes of well-formed
frames one after the other, followed by end of stream, `readMessages` sends on
`commands` exactly the frames of kind 0 and on `ack` exactly the frames of kind 1, each
in order of receipt, and then stops on the end-of-stream error. -/
theorem readMessages_routes (fs : List Message) (hwf : ∀ f ∈ fs, WellFormed f) :
    readMessages (encodeAll fs)
      = ⟨fs.filter (fun f => f.msgType = 0), fs.filter (fun f => f.msgType = 1),
          .disconnected .EOF⟩ := by
  have h := readMessagesLoop_encodeAll fs ((encodeAll fs).length + 1) [] []
    (Nat.lt_succ_of_le (length_le_encodeAll fs)) hwf
  simpa [readMessages] using h

theorem readMessages_routes_witness :
    readMessages (encodeAll [⟨0, List.replicate 16 1, 1, [65]⟩, ⟨1, List.replicate 16 2, 0, []⟩,
        ⟨0, List.replicate 16 3, 0, []⟩])
      = ⟨[⟨0, List.replicate 16 1, 1, [65]⟩, ⟨0, List.replicate 16 3, 0, []⟩],
          [⟨1, List.replicate 16 2, 0, []⟩], .disconnected .EOF⟩ :=
  readMessages_routes [⟨0, List.replicate 16 1, 1, [65]⟩, ⟨1, List.replicate 16 2, 0, []⟩,
    ⟨0, List.replicate 16 3, 0, []⟩] (by decide)

/-- C12 (length invariant), as the claim states it, fails: the Message that
`createMessage` builds from a payload of 2^32 bytes, and the Message that
`messageFromFile` builds from a file of 2^32 bytes, have length 0, not the byte count
of their msg (`uint32(len(...))` keeps the low 32 bits only). -/
theorem constructed_length_wraps :
    ¬ ((createMessage (List.replicate 4294967296 0) []).length.val
        = (createMessage (List.replicate 4294967296 0) []).msg.length) ∧
    ¬ ∀ m : Message,
      messageFromFile ⟨fun _ => [], fun _ => some (List.replicate 4294967296 0),
          fun _ => [], fun _ => []⟩ [] "status.json" = .inr m →
        m.length.val = m.msg.length := by
  constructor
  · simp only [createMessage, toU32, List.length_replicate]
    decide
  · intro h
    have h1 := h ⟨0, [], toU32 (List.replicate 4294967296 (0 : Byte)).length,
      List.replicate 4294967296 0⟩ (by simp only [messageFromFile])
    simp only [toU32, List.length_replicate] at h1
    revert h1
    decide

/-- C12 (length invariant), amended: length equals the byte count of msg for every
Message that `ReadMessage` returns with a nil error, for every Message that
`createMessage` or `messageFromFile` builds from a payload of fewer than 2^32 bytes,
and for `m.Ack()` whenever `m` itself has length equal to the byte count of its msg. -/
theorem length_invariant :
    (∀ (r rest : List Byte) (m : Message),
      ReadMessage r = .returned m none rest → m.length.val = m.msg.length) ∧
    (∀ (ms uuid : List Byte), ms.length < 4294967296 →
      (createMessage ms uuid).length.val = (createMessage ms uuid).msg.length) ∧
    (∀ (w : World) (uuid : List Byte) (file : String) (m : Message),
      messageFromFile w uuid file = .inr m → m.msg.length < 4294967296 →
      m.length.val = m.msg.length) ∧
    (∀ m : Message, m.length.val = m.msg.length →
      m.Ack.length.val = m.Ack.msg.length) := by
  refine ⟨?_, ?_, ?_, ?_⟩
  · intro r rest m h
    exact (ReadMessage_ok_inv r rest m h).2.2.1
  · intro ms uuid h
    simp only [createMessage, toU32]
    exact Nat.mod_eq_of_lt h
  · intro w uuid file m h hlt
    unfold messageFromFile at h
    split at h
    · cases h
    · simp only [Sum.inr.injEq] at h
      subst h
      simp only [toU32] at hlt ⊢
      exact Nat.mod_eq_of_lt hlt
  · intro m h
    unfold Message.Ack
    split
    · rename_i h1
      simp only [Message.zero]
      rw [← h, h1]
    · rfl

theorem length_invariant_witness :
    (createMessage [123, 125] []).length.val = (createMessage [123, 125] []).msg.length :=
  length_invariant.2.1 [123, 125] [] (by decide)

/-- C13 (length enforced when encoding), as the claim states it, fails: for the
Message with length 5 and the two-byte msg "AB", the length field that `Bytes()`
emits after the kind byte and the sixteen id bytes is not the number of payload bytes
emitted after it. -/
theorem Bytes_length_field_unchecked :
    ¬ ∀ hdr lf pl : List Byte,
      (Message.mk 0 (List.replicate 16 7) 5 [65, 66]).Bytes = hdr ++ lf ++ pl →
      hdr.length = 3 + 16 → lf.length = 4 → (uint32BE lf).val = pl.length := by
  intro h
  have := h ([0x16, 0x16, 0] ++ List.replicate 16 7) [0, 0, 0, 5] [65, 66]
    (by decide) (by decide) (by decide)
  revert this
  decide

/-- C13 (length enforced when encoding), amended: `Bytes()` emits `m.length` and the
bytes of `m.msg` as they are, without comparing them; so for every Message `m` whose
length equals the byte count of its msg, the 4-byte big-endian length field that
`m.Bytes()` emits equals the number of payload bytes it emits after it. -/
theorem Bytes_length_field (m : Message) (hdr lf pl : List Byte)
    (h : m.Bytes = hdr ++ lf ++ pl) (hh : hdr.length = 3 + m.msgId.length)
    (hl : lf.length = 4) :
    uint32BE lf = m.length ∧ pl = m.msg ∧
      (m.length.val = m.msg.length → (uint32BE lf).val = pl.length) := by
  obtain ⟨_, h2, h3⟩ := Bytes_split m hdr lf pl h hh hl
  have hf : uint32BE lf = m.length := by rw [h2, uint32BE_putUint32]
  refine ⟨hf, h3, ?_⟩
  intro hlen
  rw [hf, h3, hlen]

theorem Bytes_length_field_witness :
    (uint32BE [0, 0, 0, 2]).val = [65, 66].length :=
  (Bytes_length_field (Message.mk 0 (List.replicate 16 7) 2 [65, 66])
    ([0x16, 0x16, 0] ++ List.replicate 16 7) [0, 0, 0, 2] [65, 66]
    (by decide) (by decide) (by decide)).2.2 (by decide)

/-- C16 (ack payload): for every Message `m`, `m.Ack()` has length 0 and an empty
payload when `m.length` is not 1, and has length 1 and the payload `m.msg` when
`m.length` is exactly 1. -/
theorem Ack_payload (m : Message) :
    (m.length ≠ 1 → m.Ack.length = 0 ∧ m.Ack.msg = []) ∧
    (m.length = 1 → m.Ack.length = 1 ∧ m.Ack.msg = m.msg) := by
  constructor
  · intro h
    simp [Message.Ack, h, Message.zero]
  · intro h
    simp [Message.Ack, h]

theorem Ack_payload_witness :
    (Message.mk 0 [4] 1 [65, 66, 67]).Ack.length = 1 ∧
      (Message.mk 0 [4] 1 [65, 66, 67]).Ack.msg = [65, 66, 67] :=
  (Ack_payload (Message.mk 0 [4] 1 [65, 66, 67])).2 (by decide)

/-- C17 (exact consumption): for every well-formed frame `f` and every byte sequence
`rest`, `ReadMessage` on the stream `f.Bytes() ++ rest` returns `f` with a nil error
and leaves exactly `rest`, the bytes consumed being the first 23 + f.length; so as many
calls of `ReadMessage` as there are frames, on the bytes of well-formed frames one
after the other, return the frames one by one in order. -/
theorem ReadMessage_exact_consumption (rest : List Byte) :
    (∀ f : Message, WellFormed f →
      ReadMessage (f.Bytes ++ rest) = .returned f none rest ∧
      (f.Bytes ++ rest).take (23 + f.length.val) = f.Bytes ∧
      (f.Bytes ++ rest).drop (23 + f.length.val) = rest) ∧
    (∀ fs : List Message, (∀ f ∈ fs, WellFormed f) →
      readFrames fs.length (encodeAll fs ++ rest) = some (fs, rest)) := by
  constructor
  · rintro f ⟨hk, hid, hlen⟩
    have hl : f.Bytes.length = 23 + f.length.val := by
      rw [Bytes_length, hid, hlen]
    refine ⟨ReadMessage_Bytes_append f rest hk hid hlen, ?_, ?_⟩
    · rw [← hl, List.take_left]
    · rw [← hl, List.drop_left]
  · intro fs hwf
    exact readFrames_encodeAll fs rest hwf

theorem ReadMessage_exact_consumption_witness :
    ReadMessage ((Message.mk 1 (List.replicate 16 2) 1 [65]).Bytes ++ [0x16, 9])
      = .returned (Message.mk 1 (List.replicate 16 2) 1 [65]) none [0x16, 9] :=
  ((ReadMessage_exact_consumption [0x16, 9]).1 (Message.mk 1 (List.replicate 16 2) 1 [65])
    (by decide)).1

/-- C11 (outbound order): for every outbound sequence for which the ack-in queue
supplies, after each frame that the pump does not take for an ack (each Command-kind
frame), an ack of kind 1 with the id of that frame, the frames `writeMessages` hands
to `conn.Write` are the outbound sequence, each once and in enqueue order, the bytes
written are `f1.Bytes() ++ ... ++ fn.Bytes()`, and the run ends with the outbound
queue drained. -/
theorem writeMessages_outbound_order (messages ack left : List Message) (closed : Bool)
    (h : Supplies messages ack left) :
    written (writeMessages messages ack closed).1 = encodeAll messages ∧
      writes (writeMessages messages ack closed).1 = messages ∧
      (writeMessages messages ack closed).2 = .drained := by
  obtain ⟨h1, h2, h3⟩ := writeMessages_supplied messages ack left [] closed h
  simp only [List.append_nil, writeMessages, writes, written] at h1 h2 h3
  exact ⟨h2, h1, h3⟩

theorem writeMessages_outbound_order_witness :
    written (writeMessages [⟨0, [5], 0, []⟩, ⟨1, [9], 0, []⟩, ⟨0, [6], 1, [65]⟩]
        [⟨1, [5], 0, []⟩, ⟨1, [6], 0, []⟩] false).1
      = encodeAll [⟨0, [5], 0, []⟩, ⟨1, [9], 0, []⟩, ⟨0, [6], 1, [65]⟩] :=
  (writeMessages_outbound_order [⟨0, [5], 0, []⟩, ⟨1, [9], 0, []⟩, ⟨0, [6], 1, [65]⟩]
    [⟨1, [5], 0, []⟩, ⟨1, [6], 0, []⟩] [] false
    ((Supplies_cons_other _ _ _ _ (by decide)).mpr ⟨_, _, rfl, by decide, by decide,
      (Supplies_cons_ackKind _ _ _ _ (by decide)).mpr
        ((Supplies_cons_other _ _ _ _ (by decide)).mpr ⟨_, _, rfl, by decide, by decide,
          rfl⟩)⟩)).1

/-- C14 (bad payload is local): for every frame `c` with length >= 2 whose payload
`json.Unmarshal` rejects, leaving the map `command` nil, `handleCommands` sends
`c.Ack()`, sends or starts nothing else for `c`, calls no `log.Fatalf`, and goes on
with the next frame of `readCh`: it does what it does for `c` without its payload, and
in every session the frames on `writeCh` for `c` are none yet or `c.Ack()` alone. -/
theorem handleCommands_bad_payload (w : World) (c : Message)
    (hlen : 2 ≤ c.length.val) (hnil : w.commandKeys c.msg = []) :
    (∀ (i : Nat) (rest : List Message),
      handleCommandsFrom w i (c :: rest)
          = .send i c.Ack :: handleCommandsFrom w (i + 1) rest ∧
        handleCommandsFrom w i (c :: rest)
          = handleCommandsFrom w i ({ c with length := 0, msg := [] } :: rest)) ∧
    (∀ (readCh : List Message) (st : Session) (i : Nat),
      Reaches (Session.start w readCh) st → readCh[i]? = some c →
        (enqueuedFor i st = [] ∨ enqueuedFor i st = [c.Ack]) ∧
          (st.todo = [] → i < framesTaken w readCh → enqueuedFor i st = [c.Ack])) := by
  constructor
  · intro i rest
    obtain ⟨hr, hg⟩ := replyActions_nil_map w i c hnil
    have h1 := handleCommandsFrom_no_reply w i c rest hr hg
    refine ⟨h1, ?_⟩
    have hs : ({ c with length := 0, msg := [] } : Message).length < 2 :=
      (by decide : (0 : U32) < 2)
    obtain ⟨hr2, hg2⟩ := replyActions_short w i { c with length := 0, msg := [] } hs
    rw [h1, handleCommandsFrom_no_reply w i _ rest hr2 hg2]
    have hne : c.length ≠ 1 := by
      intro h
      rw [h] at hlen
      exact absurd hlen (by decide)
    rw [Ack_of_length_ne_one c hne,
      Ack_of_length_ne_one { c with length := 0, msg := [] } (by decide : (0 : U32) ≠ 1)]
  · intro readCh st i hrun hc
    exact session_no_reply w readCh st hrun i c hc (replyActions_nil_map w i c hnil).1

theorem handleCommands_bad_payload_witness :
    handleCommandsFrom ⟨fun _ => [], fun _ => none, fun _ => [], fun _ => []⟩ 0
        [⟨0, [7], 3, [110, 111, 33]⟩, ⟨0, [8], 0, []⟩]
      = .send 0 (Message.mk 0 [7] 3 [110, 111, 33]).Ack ::
          handleCommandsFrom ⟨fun _ => [], fun _ => none, fun _ => [], fun _ => []⟩ 1
            [⟨0, [8], 0, []⟩] :=
  ((handleCommands_bad_payload ⟨fun _ => [], fun _ => none, fun _ => [], fun _ => []⟩
    ⟨0, [7], 3, [110, 111, 33]⟩ (by decide) rfl).1 0 [⟨0, [8], 0, []⟩]).1

/-- C15 (teardown unblocks the writer): when `ReadMessage` returns an error,
`readMessages` sends nothing more, returns, and so closes both `commands` and `ack`;
and when `writeMessages`, having been supplied every ack up to then, has written a frame
that is not an ack and finds the ack channel closed and empty, it returns with no
`log.Fatalf`, having written exactly the frames up to and including that one. -/
theorem teardown_unblocks_writer :
    (∀ (fuel : Nat) (conn : List Byte) (commands ack : List Message) (m : Message)
        (e : Error) (rest : List Byte),
      ReadMessage conn = .returned m (some e) rest →
        readMessagesLoop (fuel + 1) conn commands ack = ⟨commands, ack, .disconnected e⟩ ∧
          (readMessagesLoop (fuel + 1) conn commands ack).channelsClosed = true) ∧
    (∀ (sent rest ack : List Message) (f : Message),
      Supplies sent ack [] → f.msgType ≠ 1 →
        (writeMessages (sent ++ f :: rest) ack true).2 = .ackClosed ∧
          writes (writeMessages (sent ++ f :: rest) ack true).1 = sent ++ [f] ∧
          written (writeMessages (sent ++ f :: rest) ack true).1 = encodeAll (sent ++ [f])) := by
  constructor
  · intro fuel conn commands ack m e rest h
    have h1 : readMessagesLoop (fuel + 1) conn commands ack
        = ⟨commands, ack, .disconnected e⟩ := by
      simp only [readMessagesLoop, h]
    exact ⟨h1, by rw [h1]; rfl⟩
  · intro sent rest ack f hs hf
    obtain ⟨h1, h2, h3⟩ := writeMessages_supplied sent ack [] (f :: rest) true hs
    rw [writeMessages_noAck f rest true hf] at h1 h2 h3
    refine ⟨by rw [h3]; rfl, by rw [h1]; rfl, ?_⟩
    rw [h2, encodeAll_append]
    simp [written, encodeAll]

theorem teardown_unblocks_writer_witness :
    (writeMessages ([⟨0, [5], 0, []⟩] ++ ⟨0, [6], 0, []⟩ :: [⟨0, [7], 0, []⟩])
        [⟨1, [5], 0, []⟩] true).2 = .ackClosed :=
  (teardown_unblocks_writer.2 [⟨0, [5], 0, []⟩] [⟨0, [7], 0, []⟩] [⟨1, [5], 0, []⟩]
    ⟨0, [6], 0, []⟩
    ((Supplies_cons_other _ _ _ _ (by decide)).mpr ⟨_, _, rfl, by decide, by decide, rfl⟩)
    (by decide)).1

/-- C18 (unreachable wrong-kind branch): for every inbound byte stream, when the ack
channel carries only frames that `readMessages` has sent on it, every frame
`writeMessages` takes from it has msgType 1 and no run of `writeMessages` ends in
`log.Fatalf("Invalid msgtype ...")`, whatever the outbound frames; and `readMessages`
itself comes to an end on every stream. -/
theorem invalid_msgtype_unreachable (conn : List Byte) (messages acks : List Message)
    (closed : Bool) (hfed : ∀ a ∈ acks, a ∈ (readMessages conn).ack) :
    (∀ a, .recvAck a ∈ (writeMessages messages acks closed).1 → a.msgType = 1) ∧
      (∀ a, (writeMessages messages acks closed).2 ≠ .fatalInvalidMsgtype a) ∧
      (readMessages conn).status ≠ .outOfFuel := by
  have hk : ∀ a ∈ acks, a.msgType = 1 := fun a ha =>
    readMessagesLoop_ack_kind _ conn [] [] (by simp) a (hfed a ha)
  refine ⟨?_, writeMessages_no_invalid_msgtype messages acks closed hk, ?_⟩
  · intro a ha
    exact hk a (writeMessages_recv_mem messages acks closed a ha)
  · exact readMessagesLoop_ends _ conn [] [] (Nat.lt_succ_self _)

theorem invalid_msgtype_unreachable_witness :
    WEvent.recvAck ⟨1, List.replicate 16 2, 0, []⟩
        ∈ (writeMessages [⟨0, [5], 0, []⟩] [⟨1, List.replicate 16 2, 0, []⟩] true).1 ∧
      (Message.mk 1 (List.replicate 16 2) 0 []).msgType = 1 :=
  ⟨by decide,
    (invalid_msgtype_unreachable (encodeAll [⟨1, List.replicate 16 2, 0, []⟩])
      [⟨0, [5], 0, []⟩] [⟨1, List.replicate 16 2, 0, []⟩] true (by decide)).1
      ⟨1, List.replicate 16 2, 0, []⟩ (by decide)⟩

/-- C19 (short commands get no reply): for every frame `c` with declared length 0 or
1, whatever its payload bytes and whatever the world, `handleCommands` sends `c.Ack()`
for `c` and does nothing else for it (the payload is not looked at), then goes on with
the next frame; in every session the frames on `writeCh` for `c` are none yet or
`c.Ack()` alone, and `c.Ack()` alone once the loop is through. -/
theorem handleCommands_short_command (c : Message) (hshort : c.length.val < 2) :
    (∀ (w : World) (i : Nat) (rest : List Message),
      handleCommandsFrom w i [c] = [.send i c.Ack] ∧
        handleCommandsFrom w i (c :: rest)
          = .send i c.Ack :: handleCommandsFrom w (i + 1) rest) ∧
    (∀ (w : World) (readCh : List Message) (st : Session) (i : Nat),
      Reaches (Session.start w readCh) st → readCh[i]? = some c →
        (enqueuedFor i st = [] ∨ enqueuedFor i st = [c.Ack]) ∧
          (st.todo = [] → i < framesTaken w readCh → enqueuedFor i st = [c.Ack])) := by
  have hs : c.length < 2 := hshort
  constructor
  · intro w i rest
    obtain ⟨hr, hg⟩ := replyActions_short w i c hs
    refine ⟨?_, handleCommandsFrom_no_reply w i c rest hr hg⟩
    rw [handleCommandsFrom_no_reply w i c [] hr hg]
    rfl
  · intro w readCh st i hrun hc
    exact session_no_reply w readCh st hrun i c hc (replyActions_short w i c hs).1

theorem handleCommands_short_command_witness :
    handleCommandsFrom demoWorld 4 [⟨0, [7], 1, [123, 125, 33]⟩]
      = [.send 4 (Message.mk 0 [7] 1 [123, 125, 33]).Ack] :=
  ((handleCommands_short_command ⟨0, [7], 1, [123, 125, 33]⟩ (by decide)).1 demoWorld 4 []).1

end Magex
